import Mathlib

/-!
Verification of the call-protocol pipeline of `st-agentskills` (src/index.js):
tag parser (`CALL_RE`, `extractFirstCall`), argument coercion (`tryParseArgs`),
skill registry (`normalizeConfig`, `register`), circuit breaker
(`bumpCircuitBreaker`), and the serialized execution engine (`runSkill`,
`enqueue`).

JavaScript values exchanged with handlers are modelled by the JSON fragment
`JsVal` (numbers as integers; IEEE-754 float formatting is outside the
embedding), with `undefined` modelled as `Option.none` where it can occur.
`JSON.parse` / `JSON.stringify` are modelled by `jsonParse` / `jsonStringify`
below, following the ECMA JSON grammar on that fragment.
-/

namespace AgentSkills

/-- The whitespace class used by JavaScript `\s` and `String.prototype.trim`
(ASCII whitespace plus NBSP and BOM; the exotic Unicode space code points are
not produced by any value in this development). -/
def jsWs (c : Char) : Bool :=
  c = ' ' || c = '\t' || c = '\n' || c = '\r' || c = '\x0b' || c = '\x0c' ||
  c = ' ' || c = '﻿'

/-- JavaScript `String.prototype.trim` on a character list. -/
def jsTrimList (cs : List Char) : List Char :=
  ((cs.dropWhile jsWs).reverse.dropWhile jsWs).reverse

/-- JavaScript `String.prototype.trim`. -/
def jsTrim (s : String) : String :=
  String.mk (jsTrimList s.data)

/-- Decimal digit character for a digit value (values `≥ 10` never occur). -/
def digitChar (d : Nat) : Char :=
  match d with
  | 0 => '0' | 1 => '1' | 2 => '2' | 3 => '3' | 4 => '4'
  | 5 => '5' | 6 => '6' | 7 => '7' | 8 => '8' | _ => '9'

/-- Decimal digit characters of a natural number, most significant first
(the output of JavaScript number-to-string on a nonnegative integer). -/
def natChars (n : Nat) : List Char :=
  if n = 0 then ['0'] else ((Nat.digits 10 n).map digitChar).reverse

/-- Decimal representation of a natural number. -/
def natStr (n : Nat) : String :=
  String.mk (natChars n)

/-- JavaScript number-to-string on an integer. -/
def intStr (i : Int) : String :=
  if i < 0 then "-" ++ natStr i.natAbs else natStr i.toNat

/-- JSON values (the JavaScript values this plugin passes around), with
numbers restricted to integers.  Object fields keep insertion order, as
JavaScript objects do. -/
inductive JsVal : Type where
  | jnull : JsVal
  | jbool (b : Bool) : JsVal
  | jnum (n : Int) : JsVal
  | jstr (s : String) : JsVal
  | jarr (xs : List JsVal) : JsVal
  | jobj (fields : List (String × JsVal)) : JsVal

open JsVal

/-- Hexadecimal digit character (lower case, as `JSON.stringify` emits). -/
def hexChar (d : Nat) : Char :=
  match d with
  | 0 => '0' | 1 => '1' | 2 => '2' | 3 => '3' | 4 => '4'
  | 5 => '5' | 6 => '6' | 7 => '7' | 8 => '8' | 9 => '9'
  | 10 => 'a' | 11 => 'b' | 12 => 'c' | 13 => 'd' | 14 => 'e' | _ => 'f'

/-- Value of a hexadecimal digit character, if it is one. -/
def hexVal (c : Char) : Option Nat :=
  if c = '0' then some 0 else if c = '1' then some 1
  else if c = '2' then some 2 else if c = '3' then some 3
  else if c = '4' then some 4 else if c = '5' then some 5
  else if c = '6' then some 6 else if c = '7' then some 7
  else if c = '8' then some 8 else if c = '9' then some 9
  else if c = 'a' || c = 'A' then some 10
  else if c = 'b' || c = 'B' then some 11
  else if c = 'c' || c = 'C' then some 12
  else if c = 'd' || c = 'D' then some 13
  else if c = 'e' || c = 'E' then some 14
  else if c = 'f' || c = 'F' then some 15
  else none

/-- `JSON.stringify` escaping of one character inside a string literal. -/
def escChar (c : Char) : List Char :=
  if c = '"' then ['\\', '"']
  else if c = '\\' then ['\\', '\\']
  else if c = '\x08' then ['\\', 'b']
  else if c = '\x0c' then ['\\', 'f']
  else if c = '\n' then ['\\', 'n']
  else if c = '\r' then ['\\', 'r']
  else if c = '\t' then ['\\', 't']
  else if c.toNat < 32 then
    ['\\', 'u', '0', '0', hexChar (c.toNat / 16), hexChar (c.toNat % 16)]
  else [c]

/-- A JSON string literal (quotes included) for a string value. -/
def quoteChars (s : String) : List Char :=
  '"' :: (s.data.flatMap escChar ++ ['"'])

mutual

/-- `JSON.stringify(v)` (compact form) on the modelled fragment. -/
def jsonStringifyChars : JsVal → List Char
  | jnull => ['n', 'u', 'l', 'l']
  | jbool true => ['t', 'r', 'u', 'e']
  | jbool false => ['f', 'a', 'l', 's', 'e']
  | jnum i => (intStr i).data
  | jstr s => quoteChars s
  | jarr xs => '[' :: (jsonStringifyArr xs ++ [']'])
  | jobj fs => '\x7b' :: (jsonStringifyObj fs ++ ['\x7d'])

/-- Comma-separated serializations of array elements. -/
def jsonStringifyArr : List JsVal → List Char
  | [] => []
  | [x] => jsonStringifyChars x
  | x :: y :: rest => jsonStringifyChars x ++ ',' :: jsonStringifyArr (y :: rest)

/-- Comma-separated serializations of object fields. -/
def jsonStringifyObj : List (String × JsVal) → List Char
  | [] => []
  | [(k, v)] => quoteChars k ++ ':' :: jsonStringifyChars v
  | (k, v) :: f :: rest =>
      quoteChars k ++ ':' :: jsonStringifyChars v ++ ',' :: jsonStringifyObj (f :: rest)

end

/-- `JSON.stringify(v)` as a string. -/
def jsonStringify (v : JsVal) : String :=
  String.mk (jsonStringifyChars v)

/-- The whitespace the JSON grammar allows between tokens. -/
def jsonWs (c : Char) : Bool :=
  c = ' ' || c = '\t' || c = '\n' || c = '\r'

/-- Consume an expected literal sequence of characters. -/
def dropLit : List Char → List Char → Option (List Char)
  | [], cs => some cs
  | p :: ps, c :: cs => if c = p then dropLit ps cs else none
  | _ :: _, [] => none

/-- Body of a JSON string literal after the opening quote: characters up to
the closing quote, decoding escapes; raw control characters are rejected, as
`JSON.parse` rejects them. -/
def parseStrBody (acc : List Char) (cs : List Char) : Option (String × List Char) :=
  match cs with
  | [] => none
  | c :: rest =>
      if c = '"' then some (String.mk acc.reverse, rest)
      else if c = '\\' then
        match rest with
        | [] => none
        | e :: rest2 =>
            if e = '"' then parseStrBody ('"' :: acc) rest2
            else if e = '\\' then parseStrBody ('\\' :: acc) rest2
            else if e = '/' then parseStrBody ('/' :: acc) rest2
            else if e = 'b' then parseStrBody ('\x08' :: acc) rest2
            else if e = 'f' then parseStrBody ('\x0c' :: acc) rest2
            else if e = 'n' then parseStrBody ('\n' :: acc) rest2
            else if e = 'r' then parseStrBody ('\r' :: acc) rest2
            else if e = 't' then parseStrBody ('\t' :: acc) rest2
            else if e = 'u' then
              match rest2 with
              | c1 :: c2 :: c3 :: c4 :: rest3 =>
                  match hexVal c1, hexVal c2, hexVal c3, hexVal c4 with
                  | some h1, some h2, some h3, some h4 =>
                      parseStrBody
                        (Char.ofNat (h1 * 4096 + h2 * 256 + h3 * 16 + h4) :: acc) rest3
                  | _, _, _, _ => none
              | _ => none
            else none
      else if c.toNat < 32 then none
      else parseStrBody (c :: acc) rest

/-- Greedy run of decimal digits, folded into a number. -/
def parseDigitsAux (acc : Nat) (cs : List Char) : Nat × List Char :=
  match cs with
  | c :: rest =>
      if c.isDigit then parseDigitsAux (acc * 10 + (c.toNat - 48)) rest
      else (acc, c :: rest)
  | [] => (acc, [])

/-- The digit run of a JSON number: no redundant leading zero. -/
def parseNatNumber (ds : List Char) : Option (Nat × List Char) :=
  match ds with
  | [] => none
  | c :: rest =>
      if c = '0' then
        match rest with
        | c2 :: _ => if c2.isDigit then none else some (0, rest)
        | [] => some (0, [])
      else if c.isDigit then some (parseDigitsAux (c.toNat - 48) rest)
      else none

/-- After the digits of a number, a fractional or exponent part makes the
parse fail (floats are outside the embedding) rather than misread. -/
def checkNumTail (i : Int) (r : List Char) : Option (Int × List Char) :=
  match r with
  | c :: _ => if c = '.' || c = 'e' || c = 'E' then none else some (i, r)
  | [] => some (i, [])

/-- A JSON number on the integer fragment: optional minus then digits. -/
def parseNumber (cs : List Char) : Option (Int × List Char) :=
  match cs with
  | [] => none
  | c :: rest =>
      if c = '-' then
        match parseNatNumber rest with
        | some (n, r) => checkNumTail (-(n : Int)) r
        | none => none
      else
        match parseNatNumber (c :: rest) with
        | some (n, r) => checkNumTail (n : Int) r
        | none => none

mutual

/-- One JSON value, leading whitespace allowed, fuel-bounded recursion. -/
def parseValue (fuel : Nat) (cs : List Char) : Option (JsVal × List Char) :=
  match fuel with
  | 0 => none
  | fuel + 1 =>
      match cs.dropWhile jsonWs with
      | [] => none
      | c :: rest =>
          if c = 'n' then
            match dropLit ['u', 'l', 'l'] rest with
            | some r => some (jnull, r)
            | none => none
          else if c = 't' then
            match dropLit ['r', 'u', 'e'] rest with
            | some r => some (jbool true, r)
            | none => none
          else if c = 'f' then
            match dropLit ['a', 'l', 's', 'e'] rest with
            | some r => some (jbool false, r)
            | none => none
          else if c = '"' then
            match parseStrBody [] rest with
            | some (s, r) => some (jstr s, r)
            | none => none
          else if c = '[' then
            match rest.dropWhile jsonWs with
            | [] => none
            | c2 :: r2 => if c2 = ']' then some (jarr [], r2) else parseArrElems fuel rest
          else if c = '\x7b' then
            match rest.dropWhile jsonWs with
            | [] => none
            | c2 :: r2 => if c2 = '\x7d' then some (jobj [], r2) else parseObjFields fuel rest
          else
            match parseNumber (c :: rest) with
            | some (i, r) => some (jnum i, r)
            | none => none

/-- Elements of a nonempty JSON array, up to and including the closing
bracket. -/
def parseArrElems (fuel : Nat) (cs : List Char) : Option (JsVal × List Char) :=
  match fuel with
  | 0 => none
  | fuel + 1 =>
      match parseValue (fuel + 1) cs with
      | none => none
      | some (v, r) =>
          match r.dropWhile jsonWs with
          | [] => none
          | c2 :: r2 =>
              if c2 = ',' then
                match parseArrElems fuel r2 with
                | some (jarr vs, r3) => some (jarr (v :: vs), r3)
                | _ => none
              else if c2 = ']' then some (jarr [v], r2)
              else none

/-- Fields of a nonempty JSON object, up to and including the closing
brace. -/
def parseObjFields (fuel : Nat) (cs : List Char) : Option (JsVal × List Char) :=
  match fuel with
  | 0 => none
  | fuel + 1 =>
      match cs.dropWhile jsonWs with
      | [] => none
      | c :: rest =>
          if c = '"' then
            match parseStrBody [] rest with
            | none => none
            | some (k, r) =>
                match r.dropWhile jsonWs with
                | [] => none
                | c2 :: r2 =>
                    if c2 = ':' then
                      match parseValue (fuel + 1) r2 with
                      | none => none
                      | some (v, r3) =>
                          match r3.dropWhile jsonWs with
                          | [] => none
                          | c3 :: r4 =>
                              if c3 = ',' then
                                match parseObjFields fuel r4 with
                                | some (jobj fs, r5) => some (jobj ((k, v) :: fs), r5)
                                | _ => none
                              else if c3 = '\x7d' then some (jobj [(k, v)], r4)
                              else none
                    else none
          else none

end

/-- `JSON.parse(s)` on the modelled fragment: one value, surrounding
whitespace allowed, nothing after it. -/
def jsonParse (s : String) : Option JsVal :=
  match parseValue (s.data.length + 1) s.data with
  | some (v, rest) =>
      match rest.dropWhile jsonWs with
      | [] => some v
      | _ => none
  | none => none

/-- Characters that can legally follow a serialized value inside a larger
serialized document: a separator or the end of input. -/
def sepOk : List Char → Bool
  | [] => true
  | c :: _ => c = ',' || c = ']' || c = '\x7d'

theorem digitChar_spec : ∀ d : Nat, d < 10 →
    (digitChar d).isDigit = true ∧ (digitChar d).toNat - 48 = d ∧
    jsonWs (digitChar d) = false ∧ digitChar d ≠ '-' := by decide

theorem digitChar_ne_zero : ∀ d : Nat, d < 10 → d ≠ 0 → digitChar d ≠ '0' := by
  decide

theorem sepOk_spec (c : Char) (t : List Char) (h : sepOk (c :: t) = true) :
    c.isDigit = false ∧ c ≠ '.' ∧ c ≠ 'e' ∧ c ≠ 'E' ∧ c ≠ '-' := by
  simp only [sepOk, Bool.or_eq_true, decide_eq_true_eq] at h
  rcases h with (h | h) | h <;> subst h <;> decide

theorem parseDigitsAux_map (l : List Nat) (hl : ∀ d ∈ l, d < 10) (acc : Nat)
    (rest : List Char) :
    parseDigitsAux acc (l.map digitChar ++ rest) =
      parseDigitsAux (l.foldl (fun a d => a * 10 + d) acc) rest := by
  induction l generalizing acc with
  | nil => simp
  | cons d t ih =>
      have hd : d < 10 := hl d (by simp)
      obtain ⟨h1, h2, _, _⟩ := digitChar_spec d hd
      simp only [List.map_cons, List.cons_append, parseDigitsAux, h1, if_true, h2,
        List.foldl_cons, List.append_eq]
      rw [ih (fun x hx => hl x (by simp [hx]))]

theorem parseDigitsAux_stop (a : Nat) (rest : List Char) (h : sepOk rest = true) :
    parseDigitsAux a rest = (a, rest) := by
  cases rest with
  | nil => simp [parseDigitsAux]
  | cons c t =>
      obtain ⟨hd, _⟩ := sepOk_spec c t h
      simp [parseDigitsAux, hd]

theorem foldl_digits_reverse (l : List Nat) (acc : Nat) :
    l.reverse.foldl (fun a d => a * 10 + d) acc =
      acc * 10 ^ l.length + Nat.ofDigits 10 l := by
  induction l generalizing acc with
  | nil => simp [Nat.ofDigits]
  | cons d t ih =>
      simp only [List.reverse_cons, List.foldl_append, List.foldl_cons, List.foldl_nil,
        ih, List.length_cons, Nat.ofDigits_cons]
      ring

theorem natChars_ne_nil (n : Nat) : natChars n ≠ [] := by
  unfold natChars
  split
  · simp
  · intro h
    rename_i hn
    have : Nat.digits 10 n ≠ [] := Nat.digits_ne_nil_iff_ne_zero.mpr hn
    simp only [List.reverse_eq_nil_iff, List.map_eq_nil_iff] at h
    exact this h

theorem parseNatNumber_natChars (n : Nat) (rest : List Char) (h : sepOk rest = true) :
    parseNatNumber (natChars n ++ rest) = some (n, rest) := by
  by_cases hn : n = 0
  · subst hn
    cases rest with
    | nil => simp [natChars, parseNatNumber]
    | cons c t =>
        obtain ⟨hd, _⟩ := sepOk_spec c t h
        simp [natChars, parseNatNumber, hd]
  · have hne : Nat.digits 10 n ≠ [] := Nat.digits_ne_nil_iff_ne_zero.mpr hn
    obtain ⟨msd, rds, hrev⟩ : ∃ m r, (Nat.digits 10 n).reverse = m :: r := by
      cases hr : (Nat.digits 10 n).reverse with
      | nil => exact absurd (by simpa using hr) hne
      | cons m r => exact ⟨m, r, rfl⟩
    have hmem : ∀ d ∈ (Nat.digits 10 n).reverse, d < 10 := by
      intro d hd
      exact Nat.digits_lt_base (by norm_num) (List.mem_reverse.mp hd)
    have hmsd10 : msd < 10 := hmem msd (by rw [hrev]; simp)
    have hmsd0 : msd ≠ 0 := by
      have hdigs : Nat.digits 10 n = rds.reverse ++ [msd] := by
        have := congrArg List.reverse hrev
        simpa using this
      have h2 : (Nat.digits 10 n).getLast? = some msd := by
        rw [hdigs]
        simp
      obtain ⟨hh, he⟩ := List.mem_getLast?_eq_getLast (l := Nat.digits 10 n) h2
      rw [he]
      exact Nat.getLast_digit_ne_zero 10 hn
    obtain ⟨hdig, htn, _, _⟩ := digitChar_spec msd hmsd10
    have hchars : natChars n = digitChar msd :: (rds.map digitChar) := by
      unfold natChars
      rw [if_neg hn, ← List.map_reverse, hrev, List.map_cons]
    rw [hchars]
    simp only [List.cons_append, parseNatNumber, digitChar_ne_zero msd hmsd10 hmsd0,
      if_false, hdig, if_true, htn]
    rw [parseDigitsAux_map rds (fun d hd => hmem d (by rw [hrev]; simp [hd])) msd rest,
      parseDigitsAux_stop _ _ h]
    have hfold : rds.foldl (fun a d => a * 10 + d) msd = n := by
      have h0 : (Nat.digits 10 n).reverse.foldl (fun a d => a * 10 + d) 0 = n := by
        rw [foldl_digits_reverse]
        simpa using Nat.ofDigits_digits 10 n
      rw [hrev] at h0
      simpa using h0
    rw [hfold]

theorem checkNumTail_sep (i : Int) (rest : List Char) (h : sepOk rest = true) :
    checkNumTail i rest = some (i, rest) := by
  cases rest with
  | nil => simp [checkNumTail]
  | cons c t =>
      obtain ⟨_, h1, h2, h3, _⟩ := sepOk_spec c t h
      simp [checkNumTail, h1, h2, h3]

theorem hexVal_hexChar : ∀ d : Nat, d < 16 → hexVal (hexChar d) = some d := by
  decide

theorem parseStrBody_nil (acc : List Char) : parseStrBody acc [] = none := by
  rw [parseStrBody.eq_def]

theorem parseStrBody_close (acc rest : List Char) :
    parseStrBody acc ('"' :: rest) = some (String.mk acc.reverse, rest) := by
  rw [parseStrBody.eq_def]
  simp

theorem escChar_step (c : Char) (acc t : List Char) :
    parseStrBody acc (escChar c ++ t) = parseStrBody (c :: acc) t := by
  unfold escChar
  split_ifs with h1 h2 h3 h4 h5 h6 h7 h8
  · subst h1; rw [parseStrBody.eq_def]; simp
  · subst h2; rw [parseStrBody.eq_def]; simp
  · subst h3; rw [parseStrBody.eq_def]; simp
  · subst h4; rw [parseStrBody.eq_def]; simp
  · subst h5; rw [parseStrBody.eq_def]; simp
  · subst h6; rw [parseStrBody.eq_def]; simp
  · subst h7; rw [parseStrBody.eq_def]; simp
  · have hdiv : c.toNat / 16 < 16 := by omega
    have hmod : c.toNat % 16 < 16 := by omega
    rw [List.cons_append, parseStrBody.eq_def]
    simp [hexVal_hexChar _ hdiv, hexVal_hexChar _ hmod,
      (by decide : hexVal ('0') = some 0)]
    have h9 : c.toNat / 16 * 16 + c.toNat % 16 = c.toNat := by omega
    rw [h9, Char.ofNat_toNat]
  · rw [List.cons_append, parseStrBody.eq_def]
    simp [h1, h2, h8]

theorem parseStrBody_append (l : List Char) (acc t : List Char) :
    parseStrBody acc (l.flatMap escChar ++ '"' :: t) =
      some (String.mk (acc.reverse ++ l), t) := by
  induction l generalizing acc with
  | nil => simp [parseStrBody_close]
  | cons c r ih =>
      have harr : (c :: r).flatMap escChar ++ '"' :: t =
          escChar c ++ (r.flatMap escChar ++ '"' :: t) := by
        simp
      rw [harr, escChar_step, ih]
      simp

theorem parseStrBody_quote (s : String) (t : List Char) :
    parseStrBody [] (s.data.flatMap escChar ++ '"' :: t) = some (s, t) := by
  rw [parseStrBody_append]
  simp

theorem parseNumber_intStr (i : Int) (rest : List Char) (h : sepOk rest = true) :
    parseNumber ((intStr i).data ++ rest) = some (i, rest) := by
  by_cases hi : i < 0
  · have hd : (intStr i).data = '-' :: natChars i.natAbs := by
      simp [intStr, if_pos hi, natStr]
    have hni : -((i.natAbs : Nat) : Int) = i := by omega
    rw [hd]
    simp only [List.cons_append, parseNumber, parseNatNumber_natChars _ _ h, hni,
      checkNumTail_sep _ _ h]
    simp
  · have hdata : (intStr i).data = natChars i.toNat := by
      simp [intStr, if_neg hi, natStr]
    obtain ⟨c, t, hct⟩ : ∃ c t, natChars i.toNat ++ rest = c :: t := by
      cases hx : natChars i.toNat with
      | nil => exact absurd hx (natChars_ne_nil _)
      | cons c t => exact ⟨c, t ++ rest, by simp⟩
    have hcne : c ≠ '-' := by
      cases hx : natChars i.toNat with
      | nil => exact absurd hx (natChars_ne_nil _)
      | cons c0 t0 =>
          rw [hx] at hct
          obtain rfl : c0 = c := by simpa using congrArg List.head? hct
          by_cases hz : i.toNat = 0
          · rw [hz] at hx
            have hc0 : c0 = '0' := by
              have := congrArg List.head? hx
              simp [natChars] at this
              exact this.symm
            subst hc0
            decide
          · have hne : Nat.digits 10 i.toNat ≠ [] := Nat.digits_ne_nil_iff_ne_zero.mpr hz
            have hmem : c0 ∈ natChars i.toNat := by rw [hx]; simp
            unfold natChars at hmem
            rw [if_neg hz] at hmem
            simp only [List.mem_reverse, List.mem_map] at hmem
            obtain ⟨d, hd, hdc⟩ := hmem
            have := (digitChar_spec d (Nat.digits_lt_base (by norm_num) hd)).2.2.2
            rwa [hdc] at this
    rw [hdata, hct]
    have hcc : (c = '-') = False := by simp [hcne]
    simp only [parseNumber, hcc, if_false]
    rw [← hct, parseNatNumber_natChars _ _ h]
    show checkNumTail ((i.toNat : Nat) : Int) rest = some (i, rest)
    have hti : ((i.toNat : Nat) : Int) = i := by omega
    rw [hti, checkNumTail_sep _ _ h]

mutual

/-- Node-count measure used as a fuel bound for the parser. -/
def jsize : JsVal → Nat
  | jnull => 1
  | jbool _ => 1
  | jnum _ => 1
  | jstr _ => 1
  | jarr xs => jsizeL xs + 1
  | jobj fs => jsizeF fs + 1

/-- Measure of an array element list. -/
def jsizeL : List JsVal → Nat
  | [] => 0
  | x :: r => jsize x + jsizeL r + 1

/-- Measure of an object field list. -/
def jsizeF : List (String × JsVal) → Nat
  | [] => 0
  | (_, v) :: r => jsize v + jsizeF r + 1

end

theorem jsize_pos (v : JsVal) : 1 ≤ jsize v := by
  cases v <;> simp [jsize]

theorem digitChar_dispatch : ∀ d : Nat, d < 10 →
    jsonWs (digitChar d) = false ∧ digitChar d ≠ 'n' ∧ digitChar d ≠ 't' ∧
    digitChar d ≠ 'f' ∧ digitChar d ≠ '"' ∧ digitChar d ≠ '[' ∧
    digitChar d ≠ '\x7b' ∧ digitChar d ≠ ']' ∧ digitChar d ≠ '\x7d' := by
  decide

theorem natChars_head (n : Nat) :
    ∃ d t, d < 10 ∧ natChars n = digitChar d :: t := by
  by_cases hn : n = 0
  · exact ⟨0, [], by norm_num, by simp [hn, natChars]; rfl⟩
  · have hne : Nat.digits 10 n ≠ [] := Nat.digits_ne_nil_iff_ne_zero.mpr hn
    obtain ⟨msd, rds, hrev⟩ : ∃ m r, (Nat.digits 10 n).reverse = m :: r := by
      cases hr : (Nat.digits 10 n).reverse with
      | nil => exact absurd (by simpa using hr) hne
      | cons m r => exact ⟨m, r, rfl⟩
    refine ⟨msd, rds.map digitChar, ?_, ?_⟩
    · exact Nat.digits_lt_base (by norm_num)
        (List.mem_reverse.mp (by rw [hrev]; simp))
    · unfold natChars
      rw [if_neg hn, ← List.map_reverse, hrev, List.map_cons]

theorem intStr_head (i : Int) :
    ∃ c t, (intStr i).data = c :: t ∧
      (c = '-' ∨ ∃ d, d < 10 ∧ c = digitChar d) := by
  by_cases hi : i < 0
  · exact ⟨'-', natChars i.natAbs, by simp [intStr, if_pos hi, natStr], Or.inl rfl⟩
  · obtain ⟨d, t, hd, hn⟩ := natChars_head i.toNat
    exact ⟨digitChar d, t, by simp [intStr, if_neg hi, natStr, hn],
      Or.inr ⟨d, hd, rfl⟩⟩

/-- Head character of a serialized value: never whitespace, never a closing
delimiter. -/
theorem stringifyChars_head (v : JsVal) :
    ∃ c cs, jsonStringifyChars v = c :: cs ∧ jsonWs c = false ∧
      c ≠ ']' ∧ c ≠ '\x7d' := by
  cases v with
  | jnull => exact ⟨'n', _, rfl, by decide, by decide, by decide⟩
  | jbool b =>
      cases b
      · refine ⟨'f', _, rfl, ?_, ?_, ?_⟩ <;> decide
      · refine ⟨'t', _, rfl, ?_, ?_, ?_⟩ <;> decide
  | jnum i =>
      obtain ⟨c, t, hct, hp⟩ := intStr_head i
      refine ⟨c, t, by simp [jsonStringifyChars, hct], ?_, ?_, ?_⟩ <;>
        rcases hp with rfl | ⟨d, hd, rfl⟩
      · decide
      · exact (digitChar_dispatch d hd).1
      · decide
      · exact (digitChar_dispatch d hd).2.2.2.2.2.2.2.1
      · decide
      · exact (digitChar_dispatch d hd).2.2.2.2.2.2.2.2
  | jstr s => exact ⟨'"', _, rfl, by decide, by decide, by decide⟩
  | jarr xs => exact ⟨'[', _, rfl, by decide, by decide, by decide⟩
  | jobj fs => exact ⟨'\x7b', _, rfl, by decide, by decide, by decide⟩

theorem dropWhile_cons_false (c : Char) (l : List Char) (h : jsonWs c = false) :
    List.dropWhile jsonWs (c :: l) = c :: l := by
  simp [List.dropWhile_cons, h]

theorem parseValue_null (g : Nat) (cs : List Char) :
    parseValue (g + 1) ('n' :: 'u' :: 'l' :: 'l' :: cs) = some (jnull, cs) := by
  rw [parseValue.eq_def]
  simp [jsonWs, dropLit]

theorem parseValue_true (g : Nat) (cs : List Char) :
    parseValue (g + 1) ('t' :: 'r' :: 'u' :: 'e' :: cs) = some (jbool true, cs) := by
  rw [parseValue.eq_def]
  simp [jsonWs, dropLit]

theorem parseValue_false (g : Nat) (cs : List Char) :
    parseValue (g + 1) ('f' :: 'a' :: 'l' :: 's' :: 'e' :: cs) =
      some (jbool false, cs) := by
  rw [parseValue.eq_def]
  simp [jsonWs, dropLit]

theorem parseValue_str (g : Nat) (cs : List Char) :
    parseValue (g + 1) ('"' :: cs) =
      match parseStrBody [] cs with
      | some (s, r) => some (jstr s, r)
      | none => none := by
  rw [parseValue.eq_def]
  simp [jsonWs]

theorem parseValue_arr (g : Nat) (cs : List Char) :
    parseValue (g + 1) ('[' :: cs) =
      match cs.dropWhile jsonWs with
      | [] => none
      | c2 :: r2 => if c2 = ']' then some (jarr [], r2) else parseArrElems g cs := by
  rw [parseValue.eq_def]
  simp [jsonWs]

theorem parseValue_obj (g : Nat) (cs : List Char) :
    parseValue (g + 1) ('\x7b' :: cs) =
      match cs.dropWhile jsonWs with
      | [] => none
      | c2 :: r2 => if c2 = '\x7d' then some (jobj [], r2) else parseObjFields g cs := by
  rw [parseValue.eq_def]
  simp [jsonWs]

theorem parseValue_num (g : Nat) (c : Char) (l : List Char)
    (w1 : jsonWs c = false) (w2 : c ≠ 'n') (w3 : c ≠ 't') (w4 : c ≠ 'f')
    (w5 : c ≠ '"') (w6 : c ≠ '[') (w7 : c ≠ '\x7b') :
    parseValue (g + 1) (c :: l) =
      match parseNumber (c :: l) with
      | some (i, r) => some (jnum i, r)
      | none => none := by
  rw [parseValue.eq_def]
  rw [dropWhile_cons_false _ _ w1]
  simp [w2, w3, w4, w5, w6, w7]

theorem parseArrElems_step (g : Nat) (cs : List Char) :
    parseArrElems (g + 1) cs =
      match parseValue (g + 1) cs with
      | none => none
      | some (v, r) =>
          match r.dropWhile jsonWs with
          | [] => none
          | c2 :: r2 =>
              if c2 = ',' then
                match parseArrElems g r2 with
                | some (jarr vs, r3) => some (jarr (v :: vs), r3)
                | _ => none
              else if c2 = ']' then some (jarr [v], r2)
              else none := by
  rw [parseArrElems.eq_def]

theorem parseObjFields_step (g : Nat) (cs : List Char) :
    parseObjFields (g + 1) cs =
      match cs.dropWhile jsonWs with
      | [] => none
      | c :: rest =>
          if c = '"' then
            match parseStrBody [] rest with
            | none => none
            | some (k, r) =>
                match r.dropWhile jsonWs with
                | [] => none
                | c2 :: r2 =>
                    if c2 = ':' then
                      match parseValue (g + 1) r2 with
                      | none => none
                      | some (v, r3) =>
                          match r3.dropWhile jsonWs with
                          | [] => none
                          | c3 :: r4 =>
                              if c3 = ',' then
                                match parseObjFields g r4 with
                                | some (jobj fs, r5) => some (jobj ((k, v) :: fs), r5)
                                | _ => none
                              else if c3 = '\x7d' then some (jobj [(k, v)], r4)
                              else none
                    else none
          else none := by
  rw [parseObjFields.eq_def]

theorem jsVal_sizeOf_pos (v : JsVal) : 0 < sizeOf v := by
  cases v <;> simp

mutual

/-- Completeness half of the JSON round trip: the parser reads back exactly
the value the serializer wrote, leaving the rest of the input untouched. -/
theorem parseValue_rt (v : JsVal) (fuel : Nat) (rest : List Char)
    (hf : jsize v ≤ fuel) (hs : sepOk rest = true) :
    parseValue fuel (jsonStringifyChars v ++ rest) = some (v, rest) := by
  obtain ⟨g, rfl⟩ : ∃ g, fuel = g + 1 := by
    have := jsize_pos v
    exact ⟨fuel - 1, by omega⟩
  cases v with
  | jnull => exact parseValue_null g rest
  | jbool b =>
      cases b with
      | true => exact parseValue_true g rest
      | false => exact parseValue_false g rest
  | jnum i =>
      obtain ⟨c, t, hct, hp⟩ := intStr_head i
      have hfacts : jsonWs c = false ∧ c ≠ 'n' ∧ c ≠ 't' ∧ c ≠ 'f' ∧ c ≠ '"' ∧
          c ≠ '[' ∧ c ≠ '\x7b' := by
        rcases hp with rfl | ⟨d, hd, rfl⟩
        · decide
        · obtain ⟨a1, a2, a3, a4, a5, a6, a7, _, _⟩ := digitChar_dispatch d hd
          exact ⟨a1, a2, a3, a4, a5, a6, a7⟩
      obtain ⟨w1, w2, w3, w4, w5, w6, w7⟩ := hfacts
      have hser : jsonStringifyChars (jnum i) ++ rest = c :: (t ++ rest) := by
        simp [jsonStringifyChars, hct]
      rw [hser, parseValue_num g c (t ++ rest) w1 w2 w3 w4 w5 w6 w7]
      have hback : c :: (t ++ rest) = (intStr i).data ++ rest := by
        rw [hct]
        simp
      rw [hback, parseNumber_intStr i rest hs]
  | jstr s =>
      have hser : jsonStringifyChars (jstr s) ++ rest =
          '"' :: (s.data.flatMap escChar ++ '"' :: rest) := by
        simp [jsonStringifyChars, quoteChars]
      rw [hser, parseValue_str, parseStrBody_quote]
  | jarr xs =>
      cases xs with
      | nil =>
          have hser : jsonStringifyChars (jarr []) ++ rest = '[' :: (']' :: rest) := by
            simp [jsonStringifyChars, jsonStringifyArr]
          rw [hser, parseValue_arr]
          rw [dropWhile_cons_false ']' rest (by decide)]
          simp
      | cons x xs =>
          have hser : jsonStringifyChars (jarr (x :: xs)) ++ rest =
              '[' :: (jsonStringifyArr (x :: xs) ++ ']' :: rest) := by
            simp [jsonStringifyChars]
          rw [hser, parseValue_arr]
          obtain ⟨c, cs, hc, hw, hrb, _⟩ := stringifyChars_head x
          obtain ⟨tl, htl⟩ : ∃ tl, jsonStringifyArr (x :: xs) =
              jsonStringifyChars x ++ tl := by
            cases xs with
            | nil => exact ⟨[], by simp [jsonStringifyArr]⟩
            | cons y ys => exact ⟨',' :: jsonStringifyArr (y :: ys), rfl⟩
          have harr : jsonStringifyArr (x :: xs) ++ ']' :: rest =
              c :: (cs ++ (tl ++ ']' :: rest)) := by
            rw [htl, hc]
            simp
          rw [harr, dropWhile_cons_false c _ hw]
          dsimp only
          rw [if_neg hrb, ← harr]
          have hsz : jsizeL (x :: xs) ≤ g := by
            simp only [jsize] at hf
            omega
          exact parseArr_rt x xs g rest hsz hs
  | jobj fs =>
      cases fs with
      | nil =>
          have hser : jsonStringifyChars (jobj []) ++ rest =
              '\x7b' :: ('\x7d' :: rest) := by
            simp [jsonStringifyChars, jsonStringifyObj]
          rw [hser, parseValue_obj]
          rw [dropWhile_cons_false '\x7d' rest (by decide)]
          simp
      | cons f fs2 =>
          rcases hfkv : f with ⟨k, v⟩
          have hser : jsonStringifyChars (jobj ((k, v) :: fs2)) ++ rest =
              '\x7b' :: (jsonStringifyObj ((k, v) :: fs2) ++ '\x7d' :: rest) := by
            simp [jsonStringifyChars]
          rw [hser, parseValue_obj]
          obtain ⟨tl, htl⟩ : ∃ tl, jsonStringifyObj ((k, v) :: fs2) = '"' :: tl := by
            cases fs2 with
            | nil =>
                exact ⟨(k.data.flatMap escChar ++ ['"']) ++
                  ':' :: jsonStringifyChars v, by simp [jsonStringifyObj, quoteChars]⟩
            | cons f2 t2 =>
                exact ⟨(k.data.flatMap escChar ++ ['"']) ++
                  ':' :: (jsonStringifyChars v ++ ',' :: jsonStringifyObj (f2 :: t2)),
                  by simp [jsonStringifyObj, quoteChars]⟩
          have hobr : jsonStringifyObj ((k, v) :: fs2) ++ '\x7d' :: rest =
              '"' :: (tl ++ '\x7d' :: rest) := by
            rw [htl]
            simp
          rw [hobr, dropWhile_cons_false '"' _ (by decide)]
          dsimp only
          rw [if_neg (by decide : ¬ ('"' : Char) = '\x7d'), ← hobr]
          have hsz : jsizeF ((k, v) :: fs2) ≤ g := by
            rw [hfkv] at hf
            simp only [jsize] at hf
            omega
          exact parseObj_rt k v fs2 g rest hsz hs
termination_by (sizeOf v, 1)
decreasing_by
  all_goals simp_wf
  all_goals subst_vars
  all_goals simp [Prod.lex_iff]
  all_goals omega

/-- Completeness for nonempty array element lists: elements and separators
up to the closing bracket. -/
theorem parseArr_rt (x : JsVal) (xs : List JsVal) (fuel : Nat) (rest : List Char)
    (hf : jsizeL (x :: xs) ≤ fuel) (hs : sepOk rest = true) :
    parseArrElems fuel (jsonStringifyArr (x :: xs) ++ ']' :: rest) =
      some (jarr (x :: xs), rest) := by
  obtain ⟨g, rfl⟩ : ∃ g, fuel = g + 1 := by
    have := jsize_pos x
    simp only [jsizeL] at hf
    exact ⟨fuel - 1, by omega⟩
  rw [parseArrElems_step]
  cases xs with
  | nil =>
      have h1 : jsonStringifyArr [x] ++ ']' :: rest =
          jsonStringifyChars x ++ ']' :: rest := by
        simp [jsonStringifyArr]
      have hx : jsize x ≤ g + 1 := by
        simp only [jsizeL] at hf
        omega
      rw [h1, parseValue_rt x (g + 1) (']' :: rest) hx (by simp [sepOk])]
      dsimp only
      rw [dropWhile_cons_false ']' rest (by decide)]
      simp
  | cons y ys =>
      have h1 : jsonStringifyArr (x :: y :: ys) ++ ']' :: rest =
          jsonStringifyChars x ++
            (',' :: (jsonStringifyArr (y :: ys) ++ ']' :: rest)) := by
        simp [jsonStringifyArr]
      have hx : jsize x ≤ g + 1 := by
        simp only [jsizeL] at hf
        omega
      have hys : jsizeL (y :: ys) ≤ g := by
        have := jsize_pos x
        simp only [jsizeL] at hf ⊢
        omega
      rw [h1, parseValue_rt x (g + 1) _ hx (by simp [sepOk])]
      dsimp only
      rw [dropWhile_cons_false ',' _ (by decide)]
      dsimp only
      rw [if_pos rfl, parseArr_rt y ys g rest hys hs]
termination_by (sizeOf (jarr (x :: xs)), 0)
decreasing_by
  all_goals simp_wf
  all_goals subst_vars
  all_goals simp [Prod.lex_iff]
  all_goals omega

/-- Completeness for nonempty object field lists: keys, colons, values and
separators up to the closing brace. -/
theorem parseObj_rt (k : String) (v : JsVal) (fs : List (String × JsVal))
    (fuel : Nat) (rest : List Char)
    (hf : jsizeF ((k, v) :: fs) ≤ fuel) (hs : sepOk rest = true) :
    parseObjFields fuel (jsonStringifyObj ((k, v) :: fs) ++ '\x7d' :: rest) =
      some (jobj ((k, v) :: fs), rest) := by
  obtain ⟨g, rfl⟩ : ∃ g, fuel = g + 1 := by
    have := jsize_pos v
    simp only [jsizeF] at hf
    exact ⟨fuel - 1, by omega⟩
  rw [parseObjFields_step]
  cases fs with
  | nil =>
      have h1 : jsonStringifyObj [(k, v)] ++ '\x7d' :: rest =
          '"' :: (k.data.flatMap escChar ++
            '"' :: (':' :: (jsonStringifyChars v ++ '\x7d' :: rest))) := by
        simp [jsonStringifyObj, quoteChars]
      have hv : jsize v ≤ g + 1 := by
        simp only [jsizeF] at hf
        omega
      rw [h1, dropWhile_cons_false '"' _ (by decide)]
      dsimp only
      rw [if_pos rfl, parseStrBody_quote]
      dsimp only
      rw [dropWhile_cons_false ':' _ (by decide)]
      dsimp only
      rw [if_pos rfl, parseValue_rt v (g + 1) ('\x7d' :: rest) hv (by simp [sepOk])]
      dsimp only
      rw [dropWhile_cons_false '\x7d' _ (by decide)]
      simp
  | cons f2 t2 =>
      rcases hf2 : f2 with ⟨k2, v2⟩
      have h1 : jsonStringifyObj ((k, v) :: (k2, v2) :: t2) ++ '\x7d' :: rest =
          '"' :: (k.data.flatMap escChar ++
            '"' :: (':' :: (jsonStringifyChars v ++
              ',' :: (jsonStringifyObj ((k2, v2) :: t2) ++ '\x7d' :: rest)))) := by
        simp [jsonStringifyObj, quoteChars]
      have hv : jsize v ≤ g + 1 := by
        rw [hf2] at hf
        simp only [jsizeF] at hf
        omega
      have hfs : jsizeF ((k2, v2) :: t2) ≤ g := by
        have := jsize_pos v
        rw [hf2] at hf
        simp only [jsizeF] at hf ⊢
        omega
      rw [h1, dropWhile_cons_false '"' _ (by decide)]
      dsimp only
      rw [if_pos rfl, parseStrBody_quote]
      dsimp only
      rw [dropWhile_cons_false ':' _ (by decide)]
      dsimp only
      rw [if_pos rfl, parseValue_rt v (g + 1) _ hv (by simp [sepOk])]
      dsimp only
      rw [dropWhile_cons_false ',' _ (by decide)]
      dsimp only
      rw [if_pos rfl, parseObj_rt k2 v2 t2 g rest hfs hs]
termination_by (sizeOf (jobj ((k, v) :: fs)), 0)
decreasing_by
  all_goals simp_wf
  all_goals subst_vars
  all_goals simp [Prod.lex_iff]
  all_goals omega

end

mutual

/-- The node count of a value is bounded by the length of its serialization,
so serialized length plus one is always enough fuel. -/
theorem jsize_le_len (v : JsVal) : jsize v ≤ (jsonStringifyChars v).length := by
  cases v with
  | jnull => simp [jsize, jsonStringifyChars]
  | jbool b => cases b <;> simp [jsize, jsonStringifyChars]
  | jnum i =>
      obtain ⟨c, t, hct, _⟩ := intStr_head i
      simp [jsize, jsonStringifyChars, hct]
  | jstr s => simp [jsize, jsonStringifyChars, quoteChars]
  | jarr xs =>
      cases xs with
      | nil => simp [jsize, jsizeL, jsonStringifyChars, jsonStringifyArr]
      | cons x xs =>
          have h := jsizeL_le x xs
          simp only [jsize, jsonStringifyChars, List.length_cons, List.length_append]
          omega
  | jobj fs =>
      cases fs with
      | nil => simp [jsize, jsizeF, jsonStringifyChars, jsonStringifyObj]
      | cons f fs2 =>
          rcases hfkv : f with ⟨k, v⟩
          have h := jsizeF_le k v fs2
          simp only [jsize, jsonStringifyChars, List.length_cons, List.length_append]
          omega
termination_by (sizeOf v, 1)
decreasing_by
  all_goals simp_wf
  all_goals subst_vars
  all_goals simp [Prod.lex_iff]
  all_goals omega

/-- Length bound for nonempty array element lists. -/
theorem jsizeL_le (x : JsVal) (xs : List JsVal) :
    jsizeL (x :: xs) ≤ (jsonStringifyArr (x :: xs)).length + 1 := by
  cases xs with
  | nil =>
      have h := jsize_le_len x
      simp only [jsizeL, jsonStringifyArr]
      omega
  | cons y ys =>
      have h1 := jsize_le_len x
      have h2 := jsizeL_le y ys
      simp only [jsizeL, jsonStringifyArr, List.length_append, List.length_cons] at h2 ⊢
      omega
termination_by (sizeOf (jarr (x :: xs)), 0)
decreasing_by
  all_goals simp_wf
  all_goals subst_vars
  all_goals simp [Prod.lex_iff]
  all_goals omega

/-- Length bound for nonempty object field lists. -/
theorem jsizeF_le (k : String) (v : JsVal) (fs : List (String × JsVal)) :
    jsizeF ((k, v) :: fs) ≤ (jsonStringifyObj ((k, v) :: fs)).length + 1 := by
  cases fs with
  | nil =>
      have h := jsize_le_len v
      simp only [jsizeF, jsonStringifyObj, List.length_append, List.length_cons]
      omega
  | cons f2 t2 =>
      rcases hf2 : f2 with ⟨k2, v2⟩
      have h1 := jsize_le_len v
      have h2 := jsizeF_le k2 v2 t2
      simp only [jsizeF, jsonStringifyObj, List.length_append, List.length_cons] at h2 ⊢
      omega
termination_by (sizeOf (jobj ((k, v) :: fs)), 0)
decreasing_by
  all_goals simp_wf
  all_goals subst_vars
  all_goals simp [Prod.lex_iff]
  all_goals omega

end

/-- The JSON round trip on the modelled fragment: `JSON.parse` applied to
`JSON.stringify(v)` gives back exactly `v`. -/
theorem jsonParse_jsonStringify (v : JsVal) :
    jsonParse (jsonStringify v) = some v := by
  have hlen : jsize v ≤ (jsonStringifyChars v).length + 1 := by
    have := jsize_le_len v
    omega
  have key := parseValue_rt v ((jsonStringifyChars v).length + 1) [] hlen rfl
  rw [List.append_nil] at key
  unfold jsonParse jsonStringify
  simp only [key]
  rfl

/-- Serialization is injective on the modelled fragment, so values can be
compared through their serializations. -/
instance : DecidableEq JsVal := fun a b =>
  decidable_of_iff (jsonStringify a = jsonStringify b)
    ⟨fun h => by
      have h2 := congrArg jsonParse h
      rw [jsonParse_jsonStringify, jsonParse_jsonStringify] at h2
      exact Option.some.inj h2,
     fun h => by rw [h]⟩

/-- Indentation for `JSON.stringify(value, null, 2)`. -/
def padChars (n : Nat) : List Char :=
  List.replicate n ' '

mutual

/-- `JSON.stringify(value, null, 2)`: the two-space indented form the plugin
uses through `safeJsonStringify`. -/
def prettyChars (ind : Nat) : JsVal → List Char
  | jnull => ['n', 'u', 'l', 'l']
  | jbool true => ['t', 'r', 'u', 'e']
  | jbool false => ['f', 'a', 'l', 's', 'e']
  | jnum i => (intStr i).data
  | jstr s => quoteChars s
  | jarr [] => ['[', ']']
  | jarr (x :: xs) =>
      '[' :: '\n' :: (prettyItems (ind + 2) (x :: xs) ++
        '\n' :: (padChars ind ++ [']']))
  | jobj [] => ['\x7b', '\x7d']
  | jobj (f :: fs) =>
      '\x7b' :: '\n' :: (prettyFields (ind + 2) (f :: fs) ++
        '\n' :: (padChars ind ++ ['\x7d']))

/-- Indented array items joined by a comma and newline. -/
def prettyItems (ind : Nat) : List JsVal → List Char
  | [] => []
  | [x] => padChars ind ++ prettyChars ind x
  | x :: y :: t =>
      padChars ind ++ prettyChars ind x ++ ',' :: '\n' :: prettyItems ind (y :: t)

/-- Indented object fields joined by a comma and newline. -/
def prettyFields (ind : Nat) : List (String × JsVal) → List Char
  | [] => []
  | [(k, v)] => padChars ind ++ quoteChars k ++ ':' :: ' ' :: prettyChars ind v
  | (k, v) :: f :: t =>
      padChars ind ++ quoteChars k ++ ':' :: ' ' :: prettyChars ind v ++
        ',' :: '\n' :: prettyFields ind (f :: t)

end

/-- `safeJsonStringify` from src/index.js: `JSON.stringify(value, null, 2)`
(on the modelled fragment the `try` never falls to the catch branch). -/
def safeJsonStringify (v : JsVal) : String :=
  String.mk (prettyChars 0 v)

mutual

/-- JavaScript `String(v)` on the modelled fragment. -/
def jsToString : JsVal → String
  | jnull => "null"
  | jbool b => if b then "true" else "false"
  | jnum i => intStr i
  | jstr s => s
  | jarr xs => arrJoinStr xs
  | jobj _ => "[object Object]"

/-- `Array.prototype.toString`: elements joined by commas. -/
def arrJoinStr : List JsVal → String
  | [] => ""
  | [x] => elemString x
  | x :: y :: t => elemString x ++ "," ++ arrJoinStr (y :: t)

/-- An array element as rendered by `join`: null becomes empty. -/
def elemString : JsVal → String
  | jnull => ""
  | v => jsToString v

end

/-- `safeString` from src/index.js on a JavaScript value (`none` models
`undefined`): strings pass through, null and undefined give the fallback,
anything else goes through `String(value)`. -/
def safeString (v : Option JsVal) (fallback : String := "") : String :=
  match v with
  | some (jstr s) => s
  | none => fallback
  | some jnull => fallback
  | some w => jsToString w

/-- A scalar produced by the key=value coercion.  A numeric literal keeps its
source text (`Number(val)` is float conversion, outside the embedding). -/
inductive JsScalar : Type where
  | sStr (s : String)
  | sNumRaw (raw : String)
  | sBool (b : Bool)
  | sNull
deriving Repr, DecidableEq

/-- The structured value held in the `args` field of a parsed call: the JSON
branch result, the key=value mapping, or the opaque wrapper
`\x7b _raw: text \x7d` that preserves unparseable text verbatim. -/
inductive ArgsValue : Type where
  | AJson (v : JsVal)
  | AKeyValue (pairs : List (String × JsScalar))
  | AOpaque (raw : String)
deriving DecidableEq

open ArgsValue

/-- Result of `tryParseArgs`: the coerced `args` and the kept raw text. -/
structure ParsedArgs where
  args : ArgsValue
  raw : String
deriving DecidableEq

/-- The `looksJson` check: trimmed text bounded by braces, brackets or
double quotes. -/
def looksJson (s : String) : Bool :=
  let t := jsTrim s
  (t.data.head? = some '\x7b' && t.data.getLast? = some '\x7d') ||
  (t.data.head? = some '[' && t.data.getLast? = some ']') ||
  (t.data.head? = some '"' && t.data.getLast? = some '"')

/-- One-or-more decimal digits, returning the rest. -/
def digitsThen (l : List Char) : Option (List Char) :=
  match l with
  | c :: rest => if c.isDigit then some (rest.dropWhile Char.isDigit) else none
  | [] => none

/-- The numeric-literal test of the key=value coercion:
`-?` digits (`.` digits)? and nothing else. -/
def numLit (s : String) : Bool :=
  let l := if s.data.head? = some '-' then s.data.tail else s.data
  match digitsThen l with
  | none => false
  | some [] => true
  | some (c :: r2) =>
      if c = '.' then
        match digitsThen r2 with
        | some [] => true
        | _ => false
      else false

/-- Scalar type inference applied to the right side of `key=value`:
quote stripping, numeric pattern, boolean literal, null literal, else the
text itself. -/
def coerceScalar (val : String) : JsScalar :=
  if (val.data.head? = some '"' && val.data.getLast? = some '"') ||
     (val.data.head? = some '\'' && val.data.getLast? = some '\'') then
    JsScalar.sStr (String.mk (val.data.drop 1).dropLast)
  else if numLit val then JsScalar.sNumRaw val
  else if val.toLower = "true" || val.toLower = "false" then
    JsScalar.sBool (val.toLower = "true")
  else if val.toLower = "null" then JsScalar.sNull
  else JsScalar.sStr val

/-- JavaScript object assignment `obj[key] = val`: replace in place if the
key exists, else append. -/
def jsObjSet (m : List (String × JsScalar)) (k : String) (v : JsScalar) :
    List (String × JsScalar) :=
  if m.any (fun p => p.1 = k) then
    m.map (fun p => if p.1 = k then (k, v) else p)
  else m ++ [(k, v)]

/-- One comma chunk of the key=value path: the first `=` splits key from
value; a missing `=`, an `=` at position zero, or a blank key adds nothing. -/
def kvStep (st : List (String × JsScalar) × Bool) (part : String) :
    List (String × JsScalar) × Bool :=
  match part.data.findIdx? (fun c => c = '=') with
  | none => st
  | some i =>
      if i = 0 then st
      else
        let key := jsTrim (String.mk (part.data.take i))
        let val := jsTrim (String.mk (part.data.drop (i + 1)))
        if key = "" then st
        else (jsObjSet st.1 key (coerceScalar val), true)

/-- The key=value fallback of `tryParseArgs`: split on commas, trim, drop
empties, fold the chunks into an object. -/
def kvParse (text : String) : List (String × JsScalar) × Bool :=
  (((text.splitOn ",").map jsTrim).filter (fun p => p ≠ "")).foldl kvStep ([], false)

/-- `tryParseArgs` from src/index.js: total coercion of raw argument text,
`none` modelling an absent (`undefined`) capture group.  Fallback chain:
empty text gives an empty mapping; text that looks like JSON and parses
gives the JSON value; otherwise recognized `key=value` pairs; otherwise the
opaque wrapper. -/
def tryParseArgs (raw : Option String) : ParsedArgs :=
  let text := jsTrim (safeString (raw.map jstr) "")
  if text = "" then ⟨AKeyValue [], ""⟩
  else
    let viaKv : ParsedArgs :=
      match kvParse text with
      | (obj, true) => ⟨AKeyValue obj, text⟩
      | (_, false) => ⟨AOpaque text, text⟩
    if looksJson text then
      match jsonParse text with
      | some v => ⟨AJson v, text⟩
      | none => viaKv
    else viaKv

/-- The character class of a skill name in `CALL_RE`: `[a-zA-Z0-9_.-]`. -/
def nameChar (c : Char) : Bool :=
  ('a' ≤ c && c ≤ 'z') || ('A' ≤ c && c ≤ 'Z') || c.isDigit ||
  c = '_' || c = '.' || c = '-'

/-- After a candidate `)`: optional whitespace then the closing `]`,
returning what follows it. -/
def wsThenRBracket (l : List Char) : Option (List Char) :=
  match l.dropWhile jsWs with
  | c :: rest => if c = ']' then some rest else none
  | [] => none

/-- Scan for the first `)` that is followed (modulo whitespace) by `]` —
the close the lazy group `([\s\S]*?)\s*\)` of `CALL_RE` commits to.
Returns the group content and what follows the `]`. -/
def findClose (acc : List Char) : List Char → Option (List Char × List Char)
  | [] => none
  | c :: rest =>
      if c = ')' then
        match wsThenRBracket rest with
        | some rem => some (acc.reverse, rem)
        | none => findClose (c :: acc) rest
      else findClose (c :: acc) rest

/-- Attempt `CALL_RE` anchored at the head of `cs`: `[` ws `CALL` ws `:`
ws name ws optional `( args )` ws `]`.  Returns the name characters, the
captured argument group (None when the parenthesized part is absent), and
the input remaining after the `]`. -/
def matchTagAt (cs : List Char) : Option (List Char × Option String × List Char) :=
  match cs with
  | [] => none
  | c :: r0 =>
      if c = '[' then
        match dropLit ['C', 'A', 'L', 'L'] (r0.dropWhile jsWs) with
        | none => none
        | some r2 =>
            match r2.dropWhile jsWs with
            | [] => none
            | c2 :: r4 =>
                if c2 = ':' then
                  let r5 := r4.dropWhile jsWs
                  let nm := r5.takeWhile nameChar
                  if nm.isEmpty then none
                  else
                    let r7 := (r5.dropWhile nameChar).dropWhile jsWs
                    match r7 with
                    | [] => none
                    | c3 :: r8 =>
                        if c3 = '(' then
                          match findClose [] r8 with
                          | some (content, rem) =>
                              some (nm, some (jsTrim (String.mk content)), rem)
                          | none => none
                        else if c3 = ']' then some (nm, none, r8)
                        else none
                else none
      else none

/-- Leftmost-match scan of `RegExp.exec`: try every start position from the
left, returning the first success together with the characters the match
consumed. -/
def scanTag : List Char → Option (List Char × Option String × List Char)
  | [] => none
  | c :: rest =>
      match matchTagAt (c :: rest) with
      | some (nm, grp, rem) =>
          some (nm, grp, (c :: rest).take ((c :: rest).length - rem.length))
      | none => scanTag rest

/-- A parsed call tag as produced by `extractFirstCall`. -/
structure CallRequest where
  skillName : String
  args : ArgsValue
  rawArgs : String
  rawTag : String
deriving DecidableEq

/-- `extractFirstCall` from src/index.js: the first (leftmost) well-formed
`[CALL: name(args)]` tag of the text, or `none` when there is none. -/
def extractFirstCall (text : String) : Option CallRequest :=
  match scanTag text.data with
  | none => none
  | some (nm, grp, tag) =>
      let parsed := tryParseArgs grp
      some
        { skillName := jsTrim (String.mk nm)
          args := parsed.args
          rawArgs := parsed.raw
          rawTag := String.mk tag }

/-- A thrown JavaScript value: an `Error` instance (name, message, and
possibly a stack) or any other thrown value. -/
inductive JsErr : Type where
  | jsError (name msg : String) (stack : Option String)
  | thrown (v : Option JsVal)

/-- The context object a handler receives: `(name, args, rawArgs)`. -/
structure CallCtx where
  name : String
  args : ArgsValue
  rawArgs : String

/-- A handler (`action`): resolves with a value (`none` = `undefined`) or
rejects/throws. -/
def Handler : Type := CallCtx → Except JsErr (Option JsVal)

/-- A normalized skill descriptor as stored in the registry. -/
structure Skill where
  name : String
  description : String
  action : Handler
  enabled : Bool

/-- The raw `register()` argument, field by field; `none` on a field models
an absent / wrong-typed property, and a missing object entirely is
`Option RawSkillConfig = none` at the call site. -/
structure RawSkillConfig where
  name : Option JsVal
  description : Option JsVal
  action : Option Handler
  enabled : Option JsVal

/-- The fallback handler installed when no `action` function is given. -/
def defaultAction : Handler := fun _ =>
  Except.ok (some (jobj
    [("ok", jbool false), ("error", jstr "No action() provided for this skill.")]))

/-- The generated name for a blank-name registration:
`unnamed_` followed by `Math.floor(nowMs() / 1000)`. -/
def genName (t : Nat) : String :=
  "unnamed_" ++ natStr (t / 1000)

/-- `normalizeConfig` from src/index.js: defaults every missing field and
never fails.  `t` is the `nowMs()` reading used for a generated name. -/
def normalizeConfig (cfg0 : Option RawSkillConfig) (t : Nat) : Skill :=
  let cfg := cfg0.getD ⟨none, none, none, none⟩
  let name0 := jsTrim (safeString cfg.name "")
  let name := if name0 = "" then genName t else name0
  let descr0 := jsTrim (safeString cfg.description "")
  let description := if descr0 = "" then "(no description)" else descr0
  let action := cfg.action.getD defaultAction
  let enabled := match cfg.enabled with
    | some (jbool b) => b
    | _ => true
  ⟨name, description, action, enabled⟩

/-- `Map.set`: overwrite in place by key, else append. -/
def mapSet (m : List Skill) (s : Skill) : List Skill :=
  if m.any (fun x => x.name = s.name) then
    m.map (fun x => if x.name = s.name then s else x)
  else m ++ [s]

/-- `Map.get` by skill name. -/
def registryGet (m : List Skill) (name : String) : Option Skill :=
  m.find? (fun s => s.name = name)

/-- `register` from src/index.js: normalize, insert or overwrite by name,
return the effective name.  The surrounding try/catch is unreachable in the
model because `normalizeConfig` is total. -/
def register (skills : List Skill) (cfg : Option RawSkillConfig) (t : Nat) :
    List Skill × String :=
  let normalized := normalizeConfig cfg t
  (mapSet skills normalized, normalized.name)

/-- `listEnabled` from src/index.js. -/
def listEnabled (skills : List Skill) : List Skill :=
  skills.filter (fun s => s.enabled)

/-- The breaker window, `WINDOW_MS = 30_000`. -/
def WINDOW_MS : Nat := 30000

/-- The breaker threshold, `MAX_CALLS_PER_WINDOW = 5`. -/
def MAX_CALLS_PER_WINDOW : Nat := 5

/-- `bumpCircuitBreaker` from src/index.js: push the current timestamp,
then shift entries from the front while they are strictly older than the
window, and return the resulting count together with the new state. -/
def bumpCircuitBreaker (t : Nat) (recent : List Nat) : List Nat × Nat :=
  let s := (recent ++ [t]).dropWhile (fun x => WINDOW_MS < t - x)
  (s, s.length)

/-- How one enqueued invocation ends. -/
inductive SkillOutcome : Type where
  | blocked (count : Nat)
  | notFound
  | success (payload : String)
  | failure (errorText : String)

/-- The payload normalization of the success path: a string passes through,
a plain object or array is serialized, anything else goes through
`safeString` (so `null`/`undefined` become the empty string, replaced by
the empty-result marker at delivery). -/
def payloadOf (result : Option JsVal) : String :=
  match result with
  | some (jstr s) => s
  | some (jobj fs) => safeJsonStringify (jobj fs)
  | some (jarr xs) => safeJsonStringify (jarr xs)
  | r => safeString r

/-- The classification text of a handler fault. -/
def errorTextOf (e : JsErr) : String :=
  match e with
  | JsErr.jsError n m st => jsTrim (n ++ ": " ++ m ++ "\n" ++ st.getD "")
  | JsErr.thrown v => safeString v

/-- The system message delivered when the breaker trips. -/
def breakerMsg (count : Nat) : String :=
  "st-agentskills: Circuit breaker triggered. The model called skills too frequently (" ++
    natStr count ++ " calls within " ++ natStr (WINDOW_MS / 1000) ++
    "s). Further calls are blocked to prevent infinite loops."

/-- The system message for an unknown or disabled skill. -/
def notFoundMsg (skillName : String) : String :=
  "Skill call failed: \"" ++ skillName ++ "\" is not registered or not enabled."

/-- The success message: header, separator, payload or empty-result marker. -/
def successMsg (skillName payload : String) : String :=
  "Skill result: " ++ skillName ++ "\n---\n" ++
    (if payload = "" then "(empty result)" else payload)

/-- The failure message: header, separator, fault text or unknown-error
marker. -/
def failureMsg (skillName errorText : String) : String :=
  "Skill execution failed: " ++ skillName ++ "\n---\n" ++
    (if errorText = "" then "(unknown error)" else errorText)

/-- Everything one `runSkill` invocation does: the breaker state it leaves,
the system messages it delivers, whether it issued the continuation signal
(`triggerGenerate`), and its outcome. -/
structure RunResult where
  newState : List Nat
  messages : List String
  continued : Bool
  outcome : SkillOutcome

/-- `runSkill` from src/index.js at time `t`: bump the breaker first, refuse
when the count strictly exceeds the threshold, then look the skill up, then
run the handler isolated; only the success path issues the continuation
signal. -/
def runSkill (env : List Skill) (state : List Nat) (t : Nat) (call : CallRequest) :
    RunResult :=
  let bumped := bumpCircuitBreaker t state
  if MAX_CALLS_PER_WINDOW < bumped.2 then
    ⟨bumped.1, [breakerMsg bumped.2], false, SkillOutcome.blocked bumped.2⟩
  else
    match registryGet env call.skillName with
    | none => ⟨bumped.1, [notFoundMsg call.skillName], false, SkillOutcome.notFound⟩
    | some sk =>
        if sk.enabled then
          match sk.action ⟨call.skillName, call.args, call.rawArgs⟩ with
          | Except.ok r =>
              ⟨bumped.1, [successMsg call.skillName (payloadOf r)], true,
                SkillOutcome.success (payloadOf r)⟩
          | Except.error e =>
              ⟨bumped.1, [failureMsg call.skillName (errorTextOf e)], false,
                SkillOutcome.failure (errorTextOf e)⟩
        else ⟨bumped.1, [notFoundMsg call.skillName], false, SkillOutcome.notFound⟩

/-- The promise chain of `enqueue`, run to completion: each enqueued call is
processed in order by `runSkill`, each attempt at its own timestamp, and the
`.catch` on every link means no outcome can break the chain for the rest. -/
def runQueue (env : List Skill) : List Nat → List (CallRequest × Nat) → List RunResult
  | _, [] => []
  | state, (call, t) :: rest =>
      let r := runSkill env state t call
      r :: runQueue env r.newState rest

/-- Whether `runSkill` will actually run a handler body for this call at
this breaker state: not blocked, and the skill found and enabled. -/
def execDecision (env : List Skill) (state : List Nat) (t : Nat)
    (call : CallRequest) : Bool :=
  if MAX_CALLS_PER_WINDOW < (bumpCircuitBreaker t state).2 then false
  else
    match registryGet env call.skillName with
    | none => false
    | some sk => sk.enabled

/-- Whether the handler of this call resolves (used at settle time). -/
def handlerOk (env : List Skill) (call : CallRequest) : Bool :=
  match registryGet env call.skillName with
  | some sk =>
      match sk.action ⟨call.skillName, call.args, call.rawArgs⟩ with
      | Except.ok _ => true
      | Except.error _ => false
  | none => false

/-- Observable events of the execution lane: a handler body starting, a
handler body settling, or an invocation completing without a handler body
(breaker-tripped or lookup failure). -/
inductive Ev : Type where
  | hstart (id : Nat)
  | hfin (id : Nat) (ok : Bool)
  | note (id : Nat)
deriving DecidableEq

/-- The engine environment of a lane run: the registry and the call each
enqueued id carries. -/
structure EngineEnv where
  registry : List Skill
  callOf : Nat → CallRequest

/-- The state of the single execution lane: ids are assigned in enqueue
order; `pending` is the chain of not-yet-started invocations; `runningId`
is the at-most-one handler body in flight; `breaker` is the shared circuit
state; `trace` records the observable events. -/
structure LaneState where
  nextId : Nat
  pending : List Nat
  runningId : Option Nat
  breaker : List Nat
  trace : List Ev

/-- The lane before anything is enqueued. -/
def initLane : LaneState := ⟨0, [], none, [], []⟩

/-- Small-step semantics of the promise chain built by `enqueue`:
`enqueue` may happen at any time (also reentrantly while a handler runs);
a pending invocation can start only when the previous one has settled
(`runningId = none`), taking the head of the chain; an invocation whose
breaker check or lookup fails completes in that same step without a handler
body; a running handler settles — resolving or rejecting — and either way
(the `.catch` on every link) frees the lane. -/
inductive LaneStep (env : EngineEnv) : LaneState → LaneState → Prop
  | enqueue (s : LaneState) :
      LaneStep env s
        { s with nextId := s.nextId + 1, pending := s.pending ++ [s.nextId] }
  | startNote (s : LaneState) (id : Nat) (rest : List Nat) (t : Nat)
      (h1 : s.runningId = none) (h2 : s.pending = id :: rest)
      (h3 : execDecision env.registry s.breaker t (env.callOf id) = false) :
      LaneStep env s
        { s with pending := rest,
                 breaker := (bumpCircuitBreaker t s.breaker).1,
                 trace := s.trace ++ [Ev.note id] }
  | startRun (s : LaneState) (id : Nat) (rest : List Nat) (t : Nat)
      (h1 : s.runningId = none) (h2 : s.pending = id :: rest)
      (h3 : execDecision env.registry s.breaker t (env.callOf id) = true) :
      LaneStep env s
        { s with pending := rest,
                 runningId := some id,
                 breaker := (bumpCircuitBreaker t s.breaker).1,
                 trace := s.trace ++ [Ev.hstart id] }
  | finishRun (s : LaneState) (id : Nat)
      (h1 : s.runningId = some id) :
      LaneStep env s
        { s with runningId := none,
                 trace := s.trace ++ [Ev.hfin id (handlerOk env.registry (env.callOf id))] }

/-- Lane states reachable from the empty lane. -/
def LaneReachable (env : EngineEnv) (s : LaneState) : Prop :=
  Relation.ReflTransGen (LaneStep env) initLane s

/-- Serial-trace scanner: walks the trace carrying the handler body in
flight; it refuses a trace in which a handler body starts while another is
still open, settles without being open, or an invocation completes while a
body is open.  A trace it accepts has no two overlapping handler bodies. -/
def scanSerial : List Ev → Option Nat → Option (Option Nat)
  | [], r => some r
  | Ev.hstart i :: tr, none => scanSerial tr (some i)
  | Ev.hstart _ :: _, some _ => none
  | Ev.hfin i _ :: tr, some j => if i = j then scanSerial tr none else none
  | Ev.hfin _ _ :: _, none => none
  | Ev.note _ :: tr, none => scanSerial tr none
  | Ev.note _ :: _, some _ => none

/-- The ids of the invocations the lane has begun processing, in trace
order (a `note` is an invocation processed without a handler body). -/
def startedIds (tr : List Ev) : List Nat :=
  tr.filterMap fun e =>
    match e with
    | Ev.hstart i => some i
    | Ev.note i => some i
    | Ev.hfin _ _ => none

theorem scanSerial_append (tr1 tr2 : List Ev) (r : Option Nat) :
    scanSerial (tr1 ++ tr2) r =
      match scanSerial tr1 r with
      | some r2 => scanSerial tr2 r2
      | none => none := by
  induction tr1 generalizing r with
  | nil => simp [scanSerial]
  | cons e tr ih =>
      cases e with
      | hstart i =>
          cases r with
          | none => simp [scanSerial, ih]
          | some j => simp [scanSerial]
      | hfin i ok =>
          cases r with
          | none => simp [scanSerial]
          | some j =>
              by_cases h : i = j
              · simp [scanSerial, h, ih]
              · simp [scanSerial, h]
      | note i =>
          cases r with
          | none => simp [scanSerial, ih]
          | some j => simp [scanSerial]

/-- The lane invariant: trace serial and consistent with the body in
flight, processed ids an initial segment of the enqueue order, and the
pending chain exactly the not-yet-processed ids in order. -/
def LaneInv (s : LaneState) : Prop :=
  scanSerial s.trace none = some s.runningId ∧
  startedIds s.trace = List.range (startedIds s.trace).length ∧
  s.pending = List.range' (startedIds s.trace).length
    (s.nextId - (startedIds s.trace).length) ∧
  (startedIds s.trace).length ≤ s.nextId

theorem startedIds_append_note (tr : List Ev) (i : Nat) :
    startedIds (tr ++ [Ev.note i]) = startedIds tr ++ [i] := by
  simp [startedIds]

theorem startedIds_append_start (tr : List Ev) (i : Nat) :
    startedIds (tr ++ [Ev.hstart i]) = startedIds tr ++ [i] := by
  simp [startedIds]

theorem startedIds_append_fin (tr : List Ev) (i : Nat) (ok : Bool) :
    startedIds (tr ++ [Ev.hfin i ok]) = startedIds tr := by
  simp [startedIds]

theorem laneInv_init : LaneInv initLane := by
  refine ⟨rfl, rfl, rfl, ?_⟩
  simp [initLane, startedIds]

theorem laneInv_step (env : EngineEnv) (s s2 : LaneState)
    (hstep : LaneStep env s s2) (hinv : LaneInv s) : LaneInv s2 := by
  obtain ⟨hscan, hrange, hpend, hle⟩ := hinv
  cases hstep with
  | enqueue =>
      refine ⟨hscan, hrange, ?_, by simp only []; omega⟩
      simp only [hpend]
      have hkn : s.nextId + 1 - (startedIds s.trace).length =
          (s.nextId - (startedIds s.trace).length) + 1 := by omega
      rw [hkn, List.range'_concat]
      congr 2
      omega
  | startNote id rest t h1 h2 h3 =>
      have hid : id = (startedIds s.trace).length ∧
          rest = List.range' ((startedIds s.trace).length + 1)
            (s.nextId - (startedIds s.trace).length - 1) := by
        rw [hpend] at h2
        rcases hn : s.nextId - (startedIds s.trace).length with _ | m
        · rw [hn] at h2
          simp at h2
        · rw [hn, List.range'_succ] at h2
          obtain ⟨ha, hb⟩ := List.cons.inj h2
          refine ⟨ha.symm, ?_⟩
          rw [← hb]
          congr 1
      obtain ⟨hid1, hid2⟩ := hid
      have hne : (startedIds s.trace).length < s.nextId := by
        by_contra hcon
        rw [hpend] at h2
        have : s.nextId - (startedIds s.trace).length = 0 := by omega
        rw [this] at h2
        simp at h2
      constructor
      · simp only [scanSerial_append, hscan, h1]
        simp [scanSerial]
      constructor
      · rw [startedIds_append_note, hrange, hid1]
        simp [List.range_succ]
      constructor
      · rw [startedIds_append_note]
        simp only [List.length_append, List.length_singleton]
        rw [hid2]
        congr 1
      · rw [startedIds_append_note]
        simp
        omega
  | startRun id rest t h1 h2 h3 =>
      have hid : id = (startedIds s.trace).length ∧
          rest = List.range' ((startedIds s.trace).length + 1)
            (s.nextId - (startedIds s.trace).length - 1) := by
        rw [hpend] at h2
        rcases hn : s.nextId - (startedIds s.trace).length with _ | m
        · rw [hn] at h2
          simp at h2
        · rw [hn, List.range'_succ] at h2
          obtain ⟨ha, hb⟩ := List.cons.inj h2
          refine ⟨ha.symm, ?_⟩
          rw [← hb]
          congr 1
      obtain ⟨hid1, hid2⟩ := hid
      have hne : (startedIds s.trace).length < s.nextId := by
        by_contra hcon
        rw [hpend] at h2
        have : s.nextId - (startedIds s.trace).length = 0 := by omega
        rw [this] at h2
        simp at h2
      constructor
      · simp only [scanSerial_append, hscan, h1]
        simp [scanSerial]
      constructor
      · rw [startedIds_append_start, hrange, hid1]
        simp [List.range_succ]
      constructor
      · rw [startedIds_append_start]
        simp only [List.length_append, List.length_singleton]
        rw [hid2]
        congr 1
      · rw [startedIds_append_start]
        simp
        omega
  | finishRun id h1 =>
      refine ⟨?_, by rw [startedIds_append_fin]; exact hrange,
        by rw [startedIds_append_fin]; exact hpend,
        by rw [startedIds_append_fin]; exact hle⟩
      simp only [scanSerial_append, hscan, h1]
      simp [scanSerial]

theorem laneInv_reachable (env : EngineEnv) (s : LaneState)
    (h : LaneReachable env s) : LaneInv s := by
  induction h with
  | refl => exact laneInv_init
  | tail hsteps hstep ih => exact laneInv_step env _ _ hstep ih

/-- The breaker state left by a sequence of attempts, timestamps only:
every attempt mutates the shared state the same way whatever its call. -/
def bumpFold (s : List Nat) (l : List Nat) : List Nat :=
  l.foldl (fun s t => (bumpCircuitBreaker t s).1) s

theorem runSkill_newState (env : List Skill) (s : List Nat) (t : Nat)
    (c : CallRequest) :
    (runSkill env s t c).newState = (bumpCircuitBreaker t s).1 := by
  unfold runSkill
  dsimp only
  split
  · rfl
  · split
    · rfl
    · split
      · split <;> rfl
      · rfl

theorem runQueue_length (env : List Skill) (s : List Nat)
    (attempts : List (CallRequest × Nat)) :
    (runQueue env s attempts).length = attempts.length := by
  induction attempts generalizing s with
  | nil => rfl
  | cons a rest ih => simp [runQueue, ih]

theorem bumpFold_append (s : List Nat) (l1 l2 : List Nat) :
    bumpFold s (l1 ++ l2) = bumpFold (bumpFold s l1) l2 := by
  simp [bumpFold, List.foldl_append]

theorem runQueue_getElem (env : List Skill) (s0 : List Nat)
    (attempts : List (CallRequest × Nat)) (k : Nat) (hk : k < attempts.length) :
    (runQueue env s0 attempts)[k]? =
      some (runSkill env (bumpFold s0 ((attempts.take k).map Prod.snd))
        (attempts.get ⟨k, hk⟩).2 (attempts.get ⟨k, hk⟩).1) := by
  induction attempts generalizing s0 k with
  | nil => simp at hk
  | cons a rest ih =>
      obtain ⟨c, t⟩ := a
      cases k with
      | zero => simp [runQueue, bumpFold]
      | succ k2 =>
          have hk2 : k2 < rest.length := by simpa using hk
          have := ih (runSkill env s0 t c).newState k2 hk2
          simp only [runQueue, List.getElem?_cons_succ]
          rw [this, runSkill_newState]
          have hfold : bumpFold ((bumpCircuitBreaker t s0).1)
              ((rest.take k2).map Prod.snd) =
              bumpFold s0 ((((c, t) :: rest).take (k2 + 1)).map Prod.snd) := by
            simp [bumpFold, List.take_succ_cons]
          rw [hfold]
          rfl

theorem dropWhile_head_false (p : Nat → Bool) (l : List Nat)
    (h : ∀ x, l.head? = some x → p x = false) : l.dropWhile p = l := by
  cases l with
  | nil => rfl
  | cons a t => simp [List.dropWhile_cons, h a rfl]

theorem dropWhile_all_then (p : Nat → Bool) (l : List Nat) (a : Nat)
    (h1 : ∀ x ∈ l, p x = true) (h2 : p a = false) :
    (l ++ [a]).dropWhile p = [a] := by
  induction l with
  | nil => simp [List.dropWhile_cons, h2]
  | cons b t ih =>
      simp only [List.cons_append, List.dropWhile_cons, h1 b (by simp), if_true]
      exact ih (fun x hx => h1 x (by simp [hx]))

theorem dropWhile_dropWhile (p q : Nat → Bool) (l : List Nat)
    (h : ∀ x, q x = true → p x = true) :
    (l.dropWhile q).dropWhile p = l.dropWhile p := by
  induction l with
  | nil => rfl
  | cons a t ih =>
      by_cases hq : q a = true
      · have hp := h a hq
        simp [List.dropWhile_cons, hq, hp, ih]
      · have hq2 : q a = false := by revert hq; cases q a <;> simp
        simp [List.dropWhile_cons, hq2]

theorem dropWhile_length_ge (p : Nat → Bool) (l : List Nat) (i : Nat)
    (hi : i < l.length) (h : p (l.get ⟨i, hi⟩) = false) :
    l.length - i ≤ (l.dropWhile p).length := by
  induction l generalizing i with
  | nil => simp at hi
  | cons a t ih =>
      cases i with
      | zero =>
          simp only [List.get] at h
          simp [List.dropWhile_cons, h]
      | succ j =>
          have hj : j < t.length := by simpa using hi
          have h2 : p (t.get ⟨j, hj⟩) = false := h
          by_cases hpa : p a = true
          · have := ih j hj h2
            simp only [List.dropWhile_cons, hpa, if_true]
            simp only [List.length_cons]
            omega
          · have hpa2 : p a = false := by revert hpa; cases p a <;> simp
            simp only [List.dropWhile_cons, hpa2, Bool.false_eq_true, if_false]
            simp only [List.length_cons]
            omega

theorem take_succ_eq (l : List Nat) (i : Nat) (h : i < l.length) :
    l.take (i + 1) = l.take i ++ [l.get ⟨i, h⟩] := by
  have := List.take_concat_get l i h
  rw [List.concat_eq_append] at this
  exact this.symm

/-- Within one window nothing is ever pruned: after `k` attempts whose
timestamps all lie within `WINDOW_MS` of each other, the circuit state is
exactly those `k` timestamps. -/
theorem bumpFold_window (ts : List Nat)
    (hwin : ∀ x ∈ ts, ∀ y ∈ ts, y - x ≤ WINDOW_MS) :
    ∀ k, k ≤ ts.length → bumpFold [] (ts.take k) = ts.take k := by
  intro k
  induction k with
  | zero => intro _; rfl
  | succ k2 ih =>
      intro hk
      have hk2 : k2 < ts.length := by omega
      rw [take_succ_eq ts k2 hk2, bumpFold_append, ih (by omega)]
      show (bumpCircuitBreaker (ts.get ⟨k2, hk2⟩) (ts.take k2)).1 = _
      unfold bumpCircuitBreaker
      dsimp only
      apply dropWhile_head_false
      intro x hx
      have hxmem : x ∈ ts := by
        have hm : x ∈ ts.take k2 ++ [ts.get ⟨k2, hk2⟩] := List.mem_of_mem_head? hx
        rcases List.mem_append.mp hm with h1 | h1
        · exact List.mem_of_mem_take h1
        · simp only [List.mem_singleton] at h1
          rw [h1]
          exact List.get_mem ts k2 hk2
      have := hwin x hxmem (ts.get ⟨k2, hk2⟩) (List.get_mem ts k2 hk2)
      simp only [decide_eq_false_iff_not]
      omega

/-- Breaker pruning commutes into one pass when the predicate only grows:
dropping by an older cutoff then a newer one equals dropping by the newer
one directly. -/
theorem dropWhile_dropWhile_append (p q : Nat → Bool) (l r : List Nat)
    (h : ∀ x, q x = true → p x = true) :
    (l.dropWhile q ++ r).dropWhile p = (l ++ r).dropWhile p := by
  induction l with
  | nil => rfl
  | cons a t ih =>
      by_cases hq : q a = true
      · have hp := h a hq
        simp only [List.dropWhile_cons, hq, if_true, List.cons_append,
          List.dropWhile_cons, hp]
        exact ih
      · have hq2 : q a = false := by revert hq; cases q a <;> simp
        simp [List.dropWhile_cons, hq2]

theorem getD_eq_get_of_lt (l : List Nat) (i : Nat) (h : i < l.length) :
    l.getD i 0 = l.get ⟨i, h⟩ := by
  simp [List.getD_eq_getElem?_getD, List.getElem?_eq_getElem h]

/-- Closed form of the circuit state for chronological attempts: after `k`
attempts, the state is the original timestamp list with exactly the entries
older than one window before the latest attempt pruned from the front. -/
theorem bumpFold_closed (ts : List Nat) (hsort : List.Sorted (· ≤ ·) ts) :
    ∀ k (hk1 : 1 ≤ k) (hk2 : k ≤ ts.length),
      bumpFold [] (ts.take k) =
        (ts.take k).dropWhile
          (fun x => WINDOW_MS < ts.getD (k - 1) 0 - x) := by
  intro k
  induction k with
  | zero => intro hk1; omega
  | succ k2 ih =>
      intro _ hk2
      have hk2' : k2 < ts.length := by omega
      have hgd : ts.getD (k2 + 1 - 1) 0 = ts.get ⟨k2, hk2'⟩ :=
        getD_eq_get_of_lt ts k2 hk2'
      rcases Nat.eq_zero_or_pos k2 with hz | hpos
      · subst hz
        rw [take_succ_eq ts 0 hk2']
        simp only [List.take_zero, List.nil_append]
        rw [hgd]
        rfl
      · rw [take_succ_eq ts k2 hk2', bumpFold_append, ih hpos (by omega)]
        show (bumpCircuitBreaker (ts.get ⟨k2, hk2'⟩) _).1 = _
        unfold bumpCircuitBreaker
        dsimp only
        have hmono : ∀ x,
            (decide (WINDOW_MS < ts.getD (k2 - 1) 0 - x)) = true →
            (decide (WINDOW_MS < ts.get ⟨k2, hk2'⟩ - x)) = true := by
          intro x hx
          simp only [decide_eq_true_eq] at hx ⊢
          have hle : ts.getD (k2 - 1) 0 ≤ ts.get ⟨k2, hk2'⟩ := by
            rw [getD_eq_get_of_lt ts (k2 - 1) (by omega)]
            apply hsort.rel_get_of_le
            simp only [Fin.mk_le_mk]
            omega
          omega
        rw [dropWhile_dropWhile_append _ _ _ _ hmono, hgd]

theorem bump_snd (t : Nat) (s : List Nat) :
    (bumpCircuitBreaker t s).2 = (bumpCircuitBreaker t s).1.length := rfl

theorem runSkill_blocked (env : List Skill) (s : List Nat) (t : Nat)
    (c : CallRequest) (h : MAX_CALLS_PER_WINDOW < (bumpCircuitBreaker t s).2) :
    runSkill env s t c =
      ⟨(bumpCircuitBreaker t s).1, [breakerMsg (bumpCircuitBreaker t s).2], false,
        SkillOutcome.blocked (bumpCircuitBreaker t s).2⟩ := by
  unfold runSkill
  dsimp only
  rw [if_pos h]

theorem runSkill_not_blocked (env : List Skill) (s : List Nat) (t : Nat)
    (c : CallRequest) (h : ¬ MAX_CALLS_PER_WINDOW < (bumpCircuitBreaker t s).2) :
    ∀ cnt, (runSkill env s t c).outcome ≠ SkillOutcome.blocked cnt := by
  intro cnt
  unfold runSkill
  dsimp only
  rw [if_neg h]
  split
  · simp
  · split
    · split <;> simp
    · simp

theorem mem_bump_self (t : Nat) (s : List Nat) : t ∈ (bumpCircuitBreaker t s).1 := by
  unfold bumpCircuitBreaker
  dsimp only
  induction s with
  | nil => simp [List.dropWhile_cons]
  | cons b r ih =>
      by_cases hb : (decide (WINDOW_MS < t - b)) = true
      · simpa [List.dropWhile_cons, hb] using ih
      · have hb2 : (decide (WINDOW_MS < t - b)) = false := by
          revert hb; cases (decide (WINDOW_MS < t - b)) <;> simp
        simp [List.dropWhile_cons, hb2]

/-- C2: with every attempt timestamp within one `WINDOW_MS` window of every
other, the breaker — whose state evolution never looks at the skill name,
the registry or the handler, so it is shared across all skills — lets
exactly the first `MAX_CALLS_PER_WINDOW` attempts through to lookup and
execution and refuses the later ones, delivering exactly the
breaker-tripped notice: the count is incremented first (the `k`-th attempt
sees count `k + 1`) and compared with strict greater-than. -/
theorem C2_breaker_window (env : List Skill) (attempts : List (CallRequest × Nat))
    (hwin : ∀ x ∈ attempts.map Prod.snd, ∀ y ∈ attempts.map Prod.snd,
      y - x ≤ WINDOW_MS)
    (k : Nat) (hk : k < attempts.length) :
    ∃ r, (runQueue env [] attempts)[k]? = some r ∧
      (k + 1 ≤ MAX_CALLS_PER_WINDOW → ∀ c, r.outcome ≠ SkillOutcome.blocked c) ∧
      (MAX_CALLS_PER_WINDOW < k + 1 →
        r.outcome = SkillOutcome.blocked (k + 1) ∧
        r.messages = [breakerMsg (k + 1)] ∧ r.continued = false) := by
  have hget := runQueue_getElem env [] attempts k hk
  set ts := attempts.map Prod.snd with hts
  have hlen : ts.length = attempts.length := by simp [hts]
  have htk : (attempts.get ⟨k, hk⟩).2 = ts.get ⟨k, by omega⟩ := by
    simp [hts]
  have hstate : bumpFold [] ((attempts.take k).map Prod.snd) = ts.take k := by
    rw [List.map_take, ← hts]
    exact bumpFold_window ts hwin k (by omega)
  have hcount : (bumpCircuitBreaker (ts.get ⟨k, by omega⟩) (ts.take k)).2 = k + 1 := by
    have h1 := bumpFold_window ts hwin (k + 1) (by omega)
    rw [take_succ_eq ts k (by omega), bumpFold_append,
      bumpFold_window ts hwin k (by omega)] at h1
    have h2 : (bumpCircuitBreaker (ts.get ⟨k, by omega⟩) (ts.take k)).1 =
        ts.take k ++ [ts.get ⟨k, by omega⟩] := h1
    rw [bump_snd, h2]
    simp only [List.length_append, List.length_take, List.length_singleton]
    omega
  refine ⟨_, hget, ?_, ?_⟩
  · intro hle c
    rw [hstate, htk]
    apply runSkill_not_blocked
    rw [hcount]
    omega
  · intro hgt
    rw [hstate, htk, runSkill_blocked env _ _ _ (by rw [hcount]; exact hgt)]
    exact ⟨by rw [hcount], by rw [hcount], rfl⟩

/-- C7: the breaker self-resets by lazy pruning alone: whatever the circuit
state, once strictly more than `WINDOW_MS` elapses after its newest entry
with no further attempts, the next attempt prunes every old timestamp out of
the sliding window and is not blocked. -/
theorem C7_breaker_self_reset (env : List Skill) (s : List Nat) (told t : Nat)
    (call : CallRequest)
    (hold : ∀ x ∈ s, x ≤ told) (hgap : WINDOW_MS < t - told) :
    (∀ c, (runSkill env s t call).outcome ≠ SkillOutcome.blocked c) ∧
    (runSkill env s t call).newState = [t] := by
  have hdrop : (bumpCircuitBreaker t s).1 = [t] := by
    unfold bumpCircuitBreaker
    dsimp only
    apply dropWhile_all_then
    · intro x hx
      have := hold x hx
      simp only [decide_eq_true_eq]
      omega
    · simp only [decide_eq_false_iff_not]
      omega
  constructor
  · intro c
    apply runSkill_not_blocked
    rw [bump_snd, hdrop]
    simp [MAX_CALLS_PER_WINDOW]
  · rw [runSkill_newState, hdrop]

/-- C10: every attempt — blocked ones included — appends its timestamp to
the shared circuit state before the threshold is checked (the state left
behind is always exactly the bumped state, and always contains the
attempt's own timestamp); consequently, under a sustained rate in which
each attempt has its fifth-previous attempt within the window, every
attempt from the sixth on stays blocked. -/
theorem C10_blocked_attempts_append (env : List Skill)
    (attempts : List (CallRequest × Nat))
    (hsort : List.Sorted (· ≤ ·) (attempts.map Prod.snd))
    (hrate : ∀ j, 5 ≤ j → j < (attempts.map Prod.snd).length →
      (attempts.map Prod.snd).getD j 0 -
        (attempts.map Prod.snd).getD (j - 5) 0 ≤ WINDOW_MS) :
    (∀ s t c, (runSkill env s t c).newState = (bumpCircuitBreaker t s).1 ∧
      t ∈ (runSkill env s t c).newState) ∧
    (∀ k (hk : k < attempts.length), 5 ≤ k →
      ∃ r cnt, (runQueue env [] attempts)[k]? = some r ∧
        MAX_CALLS_PER_WINDOW < cnt ∧ r.outcome = SkillOutcome.blocked cnt) := by
  constructor
  · intro s t c
    refine ⟨runSkill_newState env s t c, ?_⟩
    rw [runSkill_newState]
    exact mem_bump_self t s
  · intro k hk hk5
    have hget := runQueue_getElem env [] attempts k hk
    set ts := attempts.map Prod.snd with hts
    have hlen : ts.length = attempts.length := by simp [hts]
    have htk : (attempts.get ⟨k, hk⟩).2 = ts.getD k 0 := by
      rw [getD_eq_get_of_lt ts k (by omega)]
      simp [hts]
    have hstate : bumpFold [] ((attempts.take k).map Prod.snd) =
        (ts.take k).dropWhile
          (fun x => WINDOW_MS < ts.getD (k - 1) 0 - x) := by
      rw [List.map_take, ← hts]
      exact bumpFold_closed ts hsort k (by omega) (by omega)
    have hcombined : (bumpCircuitBreaker (ts.getD k 0)
        ((ts.take k).dropWhile
          (fun x => WINDOW_MS < ts.getD (k - 1) 0 - x))).1 =
        (ts.take (k + 1)).dropWhile
          (fun x => WINDOW_MS < ts.getD k 0 - x) := by
      unfold bumpCircuitBreaker
      dsimp only
      have hmono : ∀ x,
          (decide (WINDOW_MS < ts.getD (k - 1) 0 - x)) = true →
          (decide (WINDOW_MS < ts.getD k 0 - x)) = true := by
        intro x hx
        simp only [decide_eq_true_eq] at hx ⊢
        have hle : ts.getD (k - 1) 0 ≤ ts.getD k 0 := by
          rw [getD_eq_get_of_lt ts (k - 1) (by omega),
            getD_eq_get_of_lt ts k (by omega)]
          apply hsort.rel_get_of_le
          simp only [Fin.mk_le_mk]
          omega
        omega
      rw [dropWhile_dropWhile_append _ _ _ _ hmono]
      congr 1
      rw [getD_eq_get_of_lt ts k (by omega), ← take_succ_eq ts k (by omega)]
    have hcnt : MAX_CALLS_PER_WINDOW <
        (bumpCircuitBreaker (ts.getD k 0)
          ((ts.take k).dropWhile
            (fun x => WINDOW_MS < ts.getD (k - 1) 0 - x))).2 := by
      rw [bump_snd, hcombined]
      have hi : k - 5 < (ts.take (k + 1)).length := by
        simp only [List.length_take]
        omega
      have hival : k - 5 < ts.length := by omega
      have hval : (ts.take (k + 1)).get ⟨k - 5, hi⟩ = ts.getD (k - 5) 0 := by
        rw [getD_eq_get_of_lt ts (k - 5) hival]
        simp [List.get_take]
      have hfalse : (fun x => decide (WINDOW_MS < ts.getD k 0 - x))
          ((ts.take (k + 1)).get ⟨k - 5, hi⟩) = false := by
        rw [hval]
        simp only [decide_eq_false_iff_not]
        have := hrate k hk5 (by omega)
        omega
      have hge := dropWhile_length_ge
        (fun x => decide (WINDOW_MS < ts.getD k 0 - x))
        (ts.take (k + 1)) (k - 5) hi hfalse
      simp only [List.length_take] at hge
      show 5 < _
      omega
    refine ⟨_, _, hget, hcnt, ?_⟩
    rw [hstate, htk, runSkill_blocked env _ _ _ hcnt]

theorem runSkill_success (env : List Skill) (s : List Nat) (t : Nat)
    (c : CallRequest) (sk : Skill) (r : Option JsVal)
    (hnb : ¬ MAX_CALLS_PER_WINDOW < (bumpCircuitBreaker t s).2)
    (hsk : registryGet env c.skillName = some sk)
    (hen : sk.enabled = true)
    (hok : sk.action ⟨c.skillName, c.args, c.rawArgs⟩ = Except.ok r) :
    runSkill env s t c =
      ⟨(bumpCircuitBreaker t s).1, [successMsg c.skillName (payloadOf r)], true,
        SkillOutcome.success (payloadOf r)⟩ := by
  unfold runSkill
  rw [if_neg hnb, hsk]
  dsimp only
  rw [if_pos hen, hok]

theorem runSkill_failure (env : List Skill) (s : List Nat) (t : Nat)
    (c : CallRequest) (sk : Skill) (e : JsErr)
    (hnb : ¬ MAX_CALLS_PER_WINDOW < (bumpCircuitBreaker t s).2)
    (hsk : registryGet env c.skillName = some sk)
    (hen : sk.enabled = true)
    (herr : sk.action ⟨c.skillName, c.args, c.rawArgs⟩ = Except.error e) :
    runSkill env s t c =
      ⟨(bumpCircuitBreaker t s).1, [failureMsg c.skillName (errorTextOf e)], false,
        SkillOutcome.failure (errorTextOf e)⟩ := by
  unfold runSkill
  rw [if_neg hnb, hsk]
  dsimp only
  rw [if_pos hen, herr]

/-- C1: in every reachable state of the execution lane, the trace of
handler-body events is serial — a handler body never starts while another
is open, so no two handler bodies overlap in time — and the invocations
processed so far are exactly ids `0, 1, 2, …` in enqueue order (FIFO),
even though `enqueue` steps are permitted at any time, including while an
earlier invocation is still running. -/
theorem C1_queue_fifo_serial (env : EngineEnv) (s : LaneState)
    (h : LaneReachable env s) :
    scanSerial s.trace none = some s.runningId ∧
    startedIds s.trace = List.range (startedIds s.trace).length := by
  obtain ⟨h1, h2, _, _⟩ := laneInv_reachable env s h
  exact ⟨h1, h2⟩

/-- Concrete lane fixture: one enabled skill that greets. -/
def laneEnvW : EngineEnv :=
  ⟨[⟨"hello", "greets", fun _ => Except.ok (some (jstr "hi")), true⟩],
    fun _ => ⟨"hello", AKeyValue [], "", "[CALL: hello]"⟩⟩

/-- The lane state after enqueuing two calls and running both to
completion. -/
def laneStateW : LaneState :=
  ⟨2, [], none, [0, 1],
    [Ev.hstart 0, Ev.hfin 0 true, Ev.hstart 1, Ev.hfin 1 true]⟩

theorem C1_queue_fifo_serial_witness :
    scanSerial laneStateW.trace none = some laneStateW.runningId ∧
    startedIds laneStateW.trace = List.range (startedIds laneStateW.trace).length := by
  apply C1_queue_fifo_serial laneEnvW laneStateW
  have r0 : LaneReachable laneEnvW initLane := Relation.ReflTransGen.refl
  have r1 : LaneReachable laneEnvW ⟨1, [0], none, [], []⟩ :=
    Relation.ReflTransGen.tail r0 (LaneStep.enqueue initLane)
  have r2 : LaneReachable laneEnvW ⟨2, [0, 1], none, [], []⟩ :=
    Relation.ReflTransGen.tail r1 (LaneStep.enqueue _)
  have r3 : LaneReachable laneEnvW ⟨2, [1], some 0, [0], [Ev.hstart 0]⟩ :=
    Relation.ReflTransGen.tail r2 (LaneStep.startRun _ 0 [1] 0 rfl rfl (by decide))
  have r4 : LaneReachable laneEnvW
      ⟨2, [1], none, [0], [Ev.hstart 0, Ev.hfin 0 true]⟩ :=
    Relation.ReflTransGen.tail r3 (LaneStep.finishRun _ 0 rfl)
  have r5 : LaneReachable laneEnvW
      ⟨2, [], some 1, [0, 1], [Ev.hstart 0, Ev.hfin 0 true, Ev.hstart 1]⟩ :=
    Relation.ReflTransGen.tail r4 (LaneStep.startRun _ 1 [] 1 rfl rfl (by decide))
  exact Relation.ReflTransGen.tail r5 (LaneStep.finishRun _ 1 rfl)

/-- C3: no fault breaks the chain: every enqueued invocation produces
exactly one result, the result of the `k`-th invocation is a function of
its own call and of the earlier attempts' timestamps alone — so a thrown
or rejected handler earlier in the queue cannot change it — and an
invocation whose breaker check passes, whose skill is registered and
enabled, and whose handler resolves, succeeds and triggers continuation. -/
theorem C3_fault_isolated_chain (env : List Skill)
    (attempts : List (CallRequest × Nat)) :
    (runQueue env [] attempts).length = attempts.length ∧
    (∀ k (hk : k < attempts.length),
      (runQueue env [] attempts)[k]? =
        some (runSkill env (bumpFold [] ((attempts.take k).map Prod.snd))
          (attempts.get ⟨k, hk⟩).2 (attempts.get ⟨k, hk⟩).1)) ∧
    (∀ k (hk : k < attempts.length) (sk : Skill) (r : Option JsVal),
      registryGet env (attempts.get ⟨k, hk⟩).1.skillName = some sk →
      sk.enabled = true →
      sk.action ⟨(attempts.get ⟨k, hk⟩).1.skillName, (attempts.get ⟨k, hk⟩).1.args,
        (attempts.get ⟨k, hk⟩).1.rawArgs⟩ = Except.ok r →
      ¬ MAX_CALLS_PER_WINDOW <
        (bumpCircuitBreaker (attempts.get ⟨k, hk⟩).2
          (bumpFold [] ((attempts.take k).map Prod.snd))).2 →
      ∃ rr, (runQueue env [] attempts)[k]? = some rr ∧
        rr.outcome = SkillOutcome.success (payloadOf r) ∧ rr.continued = true) := by
  refine ⟨runQueue_length env [] attempts, ?_, ?_⟩
  · intro k hk
    exact runQueue_getElem env [] attempts k hk
  · intro k hk sk r hsk hen hok hnb
    refine ⟨_, runQueue_getElem env [] attempts k hk, ?_⟩
    rw [runSkill_success env _ _ _ sk r hnb hsk hen hok]
    exact ⟨rfl, rfl⟩

/-- Concrete queue fixture: a skill that always rejects followed by one
that succeeds. -/
def envC3 : List Skill :=
  [⟨"boom", "always throws", fun _ => Except.error (JsErr.jsError "Error" "kaboom" none), true⟩,
   ⟨"ok", "always fine", fun _ => Except.ok (some (jstr "fine")), true⟩]

/-- Two attempts: the rejecting skill first, the succeeding one second. -/
def attemptsC3 : List (CallRequest × Nat) :=
  [(⟨"boom", AKeyValue [], "", ""⟩, 0), (⟨"ok", AKeyValue [], "", ""⟩, 1)]

theorem C3_fault_isolated_chain_witness :
    ∃ rr, (runQueue envC3 [] attemptsC3)[1]? = some rr ∧
      rr.outcome = SkillOutcome.success (payloadOf (some (jstr "fine"))) ∧
      rr.continued = true :=
  (C3_fault_isolated_chain envC3 attemptsC3).2.2 1 (by decide)
    ⟨"ok", "always fine", fun _ => Except.ok (some (jstr "fine")), true⟩
    (some (jstr "fine")) rfl rfl rfl (by decide)

/-- C6: on the success path the handler's return value is normalized — a
string passes through, a plain object or array is serialized with
`safeJsonStringify`, `null`/`undefined` yield the explicit
`(empty result)` marker — delivered as the single success message, and the
continuation signal is issued; on the failure path the single delivered
message carries the fault's classification and message and no continuation
signal is issued. -/
theorem C6_result_dispatch (env : List Skill) (s : List Nat) (t : Nat)
    (call : CallRequest) (sk : Skill)
    (hsk : registryGet env call.skillName = some sk)
    (hen : sk.enabled = true)
    (hnb : ¬ MAX_CALLS_PER_WINDOW < (bumpCircuitBreaker t s).2) :
    (∀ r, sk.action ⟨call.skillName, call.args, call.rawArgs⟩ = Except.ok r →
      runSkill env s t call =
        ⟨(bumpCircuitBreaker t s).1, [successMsg call.skillName (payloadOf r)], true,
          SkillOutcome.success (payloadOf r)⟩) ∧
    (∀ e, sk.action ⟨call.skillName, call.args, call.rawArgs⟩ = Except.error e →
      runSkill env s t call =
        ⟨(bumpCircuitBreaker t s).1, [failureMsg call.skillName (errorTextOf e)], false,
          SkillOutcome.failure (errorTextOf e)⟩) ∧
    (∀ str, payloadOf (some (jstr str)) = str) ∧
    (∀ fs, payloadOf (some (jobj fs)) = safeJsonStringify (jobj fs)) ∧
    (∀ xs, payloadOf (some (jarr xs)) = safeJsonStringify (jarr xs)) ∧
    successMsg call.skillName (payloadOf none) =
      "Skill result: " ++ call.skillName ++ "\n---\n" ++ "(empty result)" ∧
    successMsg call.skillName (payloadOf (some jnull)) =
      "Skill result: " ++ call.skillName ++ "\n---\n" ++ "(empty result)" ∧
    (∀ n m st, errorTextOf (JsErr.jsError n m st) =
      jsTrim (n ++ ": " ++ m ++ "\n" ++ st.getD "")) := by
  refine ⟨?_, ?_, fun _ => rfl, fun _ => rfl, fun _ => rfl, rfl, rfl, fun _ _ _ => rfl⟩
  · intro r hok
    exact runSkill_success env s t call sk r hnb hsk hen hok
  · intro e herr
    exact runSkill_failure env s t call sk e hnb hsk hen herr

/-- Concrete dispatch fixture: one enabled skill returning `undefined`. -/
def envC6 : List Skill :=
  [⟨"quiet", "returns undefined", fun _ => Except.ok none, true⟩]

theorem C6_result_dispatch_witness :
    runSkill envC6 [] 0 ⟨"quiet", AKeyValue [], "", ""⟩ =
      ⟨[0], [successMsg "quiet" (payloadOf none)], true,
        SkillOutcome.success (payloadOf none)⟩ ∧
    successMsg "quiet" (payloadOf none) =
      "Skill result: " ++ "quiet" ++ "\n---\n" ++ "(empty result)" := by
  constructor
  · exact (C6_result_dispatch envC6 [] 0 ⟨"quiet", AKeyValue [], "", ""⟩
      ⟨"quiet", "returns undefined", fun _ => Except.ok none, true⟩
      rfl rfl (by decide)).1 none rfl
  · exact ((C6_result_dispatch envC6 [] 0 ⟨"quiet", AKeyValue [], "", ""⟩
      ⟨"quiet", "returns undefined", fun _ => Except.ok none, true⟩
      rfl rfl (by decide)).2.2.2.2.2).1

theorem scanTag_spec (cs : List Char) :
    (scanTag cs = none → ∀ i, matchTagAt (List.drop i cs) = none) ∧
    (∀ nm grp tag, scanTag cs = some (nm, grp, tag) →
      ∃ i rem, matchTagAt (List.drop i cs) = some (nm, grp, rem) ∧
        (∀ j, j < i → matchTagAt (List.drop j cs) = none) ∧
        tag = (List.drop i cs).take ((List.drop i cs).length - rem.length)) := by
  induction cs with
  | nil =>
      refine ⟨fun _ i => ?_, fun nm grp tag h => by simp [scanTag] at h⟩
      simp [matchTagAt]
  | cons c rest ih =>
      rcases hm : matchTagAt (c :: rest) with _ | ⟨nm0, grp0, rem0⟩
      · constructor
        · intro hnone i
          match i with
          | 0 => exact hm
          | i + 1 =>
              have : scanTag rest = none := by
                rw [scanTag, hm] at hnone
                exact hnone
              exact (ih.1 this) i
        · intro nm grp tag h
          rw [scanTag, hm] at h
          obtain ⟨i, rem, h1, h2, h3⟩ := ih.2 nm grp tag h
          refine ⟨i + 1, rem, h1, ?_, h3⟩
          intro j hj
          match j with
          | 0 => exact hm
          | j + 1 => exact h2 j (by omega)
      · constructor
        · intro hnone
          rw [scanTag, hm] at hnone
          exact absurd hnone (by simp)
        · intro nm grp tag h
          rw [scanTag, hm] at h
          simp only [Option.some.injEq, Prod.mk.injEq] at h
          obtain ⟨h1, h2, h3⟩ := h
          subst h1
          subst h2
          subst h3
          refine ⟨0, rem0, ?_, fun j hj => absurd hj (by omega), ?_⟩
          · rw [List.drop_zero]
            exact hm
          · rw [List.drop_zero]

/-- C4: the tag parser returns at most one CallRequest and it is the
leftmost one: when it returns none, no start position of the text matches
the anchored tag grammar of CALL_RE; when it returns a request, some
position matches, every earlier position does not, and the request fields
are the matched name (trimmed), the coerced capture group and its raw
text — so all later tags are ignored and absence of a tag is not an
error. -/
theorem C4_leftmost_tag (text : String) :
    (extractFirstCall text = none → ∀ i, matchTagAt (List.drop i text.data) = none) ∧
    (∀ req, extractFirstCall text = some req →
      ∃ i nm grp rem, matchTagAt (List.drop i text.data) = some (nm, grp, rem) ∧
        (∀ j, j < i → matchTagAt (List.drop j text.data) = none) ∧
        req.skillName = jsTrim (String.mk nm) ∧
        req.args = (tryParseArgs grp).args ∧
        req.rawArgs = (tryParseArgs grp).raw) := by
  constructor
  · intro hnone
    rcases hscan : scanTag text.data with _ | ⟨nm, grp, tag⟩
    · exact (scanTag_spec text.data).1 hscan
    · rw [extractFirstCall, hscan] at hnone
      exact absurd hnone (by simp)
  · intro req hreq
    rcases hscan : scanTag text.data with _ | ⟨nm, grp, tag⟩
    · rw [extractFirstCall, hscan] at hreq
      exact absurd hreq (by simp)
    · rw [extractFirstCall, hscan] at hreq
      obtain ⟨i, rem, h1, h2, _⟩ := (scanTag_spec text.data).2 nm grp tag hscan
      simp only [Option.some.injEq] at hreq
      refine ⟨i, nm, grp, rem, h1, h2, ?_, ?_, ?_⟩ <;> rw [← hreq]

theorem C4_leftmost_tag_witness :
    ∃ i nm grp rem,
      matchTagAt (List.drop i (String.data "see [CALL: ping] then [CALL: pong]")) =
        some (nm, grp, rem) ∧
      (∀ j, j < i →
        matchTagAt (List.drop j (String.data "see [CALL: ping] then [CALL: pong]")) = none) ∧
      CallRequest.skillName ⟨"ping", AKeyValue [], "", "[CALL: ping]"⟩ = jsTrim (String.mk nm) ∧
      CallRequest.args ⟨"ping", AKeyValue [], "", "[CALL: ping]"⟩ = (tryParseArgs grp).args ∧
      CallRequest.rawArgs ⟨"ping", AKeyValue [], "", "[CALL: ping]"⟩ = (tryParseArgs grp).raw :=
  (C4_leftmost_tag "see [CALL: ping] then [CALL: pong]").2
    ⟨"ping", AKeyValue [], "", "[CALL: ping]"⟩ (by decide)

theorem safeString_map_jstr (raw : Option String) :
    safeString (raw.map jstr) "" = raw.getD "" := by
  cases raw <;> rfl

/-- C5: argument coercion is total and follows the fallback chain: every
input (absent, empty, or malformed) yields a defined ParsedArgs; blank
text yields the empty mapping, never Opaque; non-blank text keeps its
trimmed raw form and its args are the JSON branch when the text looks like
JSON and parses, else the key=value mapping when some pair is recognized,
else the opaque wrapper holding the raw text. -/
theorem C5_coercion_total (raw : Option String) :
    (∃ pa : ParsedArgs, tryParseArgs raw = pa) ∧
    (jsTrim (raw.getD "") = "" →
      (tryParseArgs raw).args = AKeyValue [] ∧ (tryParseArgs raw).raw = "") ∧
    (∀ t, jsTrim (raw.getD "") = t → t ≠ "" →
      (tryParseArgs raw).raw = t ∧
      ((∃ v, looksJson t = true ∧ jsonParse t = some v ∧
          (tryParseArgs raw).args = AJson v) ∨
       (∃ obj, (looksJson t = false ∨ jsonParse t = none) ∧
          kvParse t = (obj, true) ∧ (tryParseArgs raw).args = AKeyValue obj) ∨
       ((looksJson t = false ∨ jsonParse t = none) ∧ (kvParse t).2 = false ∧
          (tryParseArgs raw).args = AOpaque t))) := by
  refine ⟨⟨tryParseArgs raw, rfl⟩, ?_, ?_⟩
  · intro hblank
    rw [tryParseArgs, safeString_map_jstr, hblank]
    exact ⟨rfl, rfl⟩
  · intro t ht hne
    have base : tryParseArgs raw =
        (if looksJson t = true then
          match jsonParse t with
          | some v => ⟨AJson v, t⟩
          | none =>
              match kvParse t with
              | (obj, true) => ⟨AKeyValue obj, t⟩
              | (_, false) => ⟨AOpaque t, t⟩
        else
          match kvParse t with
          | (obj, true) => ⟨AKeyValue obj, t⟩
          | (_, false) => ⟨AOpaque t, t⟩) := by
      rw [tryParseArgs, safeString_map_jstr, ht, if_neg hne]
    rcases hlj : looksJson t with _ | _
    · have hnl : ¬ looksJson t = true := by simp [hlj]
      rw [if_neg hnl] at base
      rcases hkv : kvParse t with ⟨obj, b⟩
      rw [hkv] at base
      cases b
      · rw [base]
        exact ⟨rfl, Or.inr (Or.inr ⟨Or.inl rfl, rfl, rfl⟩)⟩
      · rw [base]
        exact ⟨rfl, Or.inr (Or.inl ⟨obj, Or.inl rfl, rfl, rfl⟩)⟩
    · rw [if_pos hlj] at base
      rcases hjp : jsonParse t with _ | v
      · rw [hjp] at base
        rcases hkv : kvParse t with ⟨obj, b⟩
        rw [hkv] at base
        cases b
        · rw [base]
          exact ⟨rfl, Or.inr (Or.inr ⟨Or.inr rfl, rfl, rfl⟩)⟩
        · rw [base]
          exact ⟨rfl, Or.inr (Or.inl ⟨obj, Or.inr rfl, rfl, rfl⟩)⟩
      · rw [hjp] at base
        rw [base]
        exact ⟨rfl, Or.inl ⟨v, rfl, rfl, rfl⟩⟩

theorem C5_coercion_total_witness :
    (tryParseArgs (some " a=1, flag=true ")).raw = "a=1, flag=true" ∧
    ((∃ v, looksJson "a=1, flag=true" = true ∧ jsonParse "a=1, flag=true" = some v ∧
        (tryParseArgs (some " a=1, flag=true ")).args = AJson v) ∨
     (∃ obj, (looksJson "a=1, flag=true" = false ∨ jsonParse "a=1, flag=true" = none) ∧
        kvParse "a=1, flag=true" = (obj, true) ∧
        (tryParseArgs (some " a=1, flag=true ")).args = AKeyValue obj) ∨
     ((looksJson "a=1, flag=true" = false ∨ jsonParse "a=1, flag=true" = none) ∧
        (kvParse "a=1, flag=true").2 = false ∧
        (tryParseArgs (some " a=1, flag=true ")).args = AOpaque "a=1, flag=true")) :=
  (C5_coercion_total (some " a=1, flag=true ")).2.2 "a=1, flag=true" (by decide) (by decide)

/-- C8: round trip through the JSON branch: when the serialization of a
value v enters the JSON branch (it looks like JSON and trimming leaves it
unchanged, as with every object, array or string), coercing it yields
exactly AJson v with the serialization kept as raw text. -/
theorem C8_json_roundtrip (v : JsVal)
    (hlooks : looksJson (jsonStringify v) = true)
    (htrim : jsTrim (jsonStringify v) = jsonStringify v) :
    tryParseArgs (some (jsonStringify v)) = ⟨AJson v, jsonStringify v⟩ := by
  have hne : jsonStringify v ≠ "" := by
    intro h0
    rw [h0] at hlooks
    exact absurd hlooks (by decide)
  have ht : jsTrim ((some (jsonStringify v)).getD "") = jsonStringify v := htrim
  have base : tryParseArgs (some (jsonStringify v)) =
      (if looksJson (jsonStringify v) = true then
        match jsonParse (jsonStringify v) with
        | some w => ⟨AJson w, jsonStringify v⟩
        | none =>
            match kvParse (jsonStringify v) with
            | (obj, true) => ⟨AKeyValue obj, jsonStringify v⟩
            | (_, false) => ⟨AOpaque (jsonStringify v), jsonStringify v⟩
      else
        match kvParse (jsonStringify v) with
        | (obj, true) => ⟨AKeyValue obj, jsonStringify v⟩
        | (_, false) => ⟨AOpaque (jsonStringify v), jsonStringify v⟩) := by
    rw [tryParseArgs, safeString_map_jstr, ht, if_neg hne]
  rw [base, if_pos hlooks, jsonParse_jsonStringify]

theorem C8_json_roundtrip_witness :
    tryParseArgs (some (jsonStringify
        (jobj [("a", jbool true), ("b", jarr [jnull, jbool false, jstr "x"])]))) =
      ⟨AJson (jobj [("a", jbool true), ("b", jarr [jnull, jbool false, jstr "x"])]),
        jsonStringify (jobj [("a", jbool true), ("b", jarr [jnull, jbool false, jstr "x"])])⟩ :=
  C8_json_roundtrip (jobj [("a", jbool true), ("b", jarr [jnull, jbool false, jstr "x"])])
    (by decide) (by decide)

theorem natChars_inj (a b : Nat) (h : natChars a = natChars b) : a = b := by
  have ha := parseNatNumber_natChars a [] (by decide)
  have hb := parseNatNumber_natChars b [] (by decide)
  rw [List.append_nil] at ha hb
  rw [h, hb] at ha
  simp only [Option.some.injEq, Prod.mk.injEq] at ha
  exact ha.1.symm

theorem genName_iff (t t2 : Nat) :
    genName t = genName t2 ↔ t / 1000 = t2 / 1000 := by
  constructor
  · intro h
    have hd : "unnamed_".data ++ natChars (t / 1000) =
        "unnamed_".data ++ natChars (t2 / 1000) := congrArg String.data h
    exact natChars_inj _ _ (List.append_cancel_left hd)
  · intro h
    unfold genName natStr
    rw [h]

theorem genName_ne_blank (t : Nat) : genName t ≠ "" := by
  intro h
  have hd : "unnamed_".data ++ natChars (t / 1000) = ([] : List Char) :=
    congrArg String.data h
  rcases List.append_eq_nil.mp hd with ⟨-, h2⟩
  exact natChars_ne_nil _ h2

theorem normalizeConfig_name (cfg : Option RawSkillConfig) (t : Nat) :
    (normalizeConfig cfg t).name =
      (if jsTrim (safeString (cfg.getD ⟨none, none, none, none⟩).name "") = ""
        then genName t
        else jsTrim (safeString (cfg.getD ⟨none, none, none, none⟩).name "")) := rfl

theorem normalizeConfig_name_ne (cfg : Option RawSkillConfig) (t : Nat) :
    (normalizeConfig cfg t).name ≠ "" := by
  rw [normalizeConfig_name]
  by_cases h0 : jsTrim (safeString (cfg.getD ⟨none, none, none, none⟩).name "") = ""
  · rw [if_pos h0]
    exact genName_ne_blank t
  · rw [if_neg h0]
    exact h0

theorem find?_map_overwrite (m : List Skill) (s : Skill)
    (hany : m.any (fun x => x.name = s.name) = true) :
    (m.map (fun x => if x.name = s.name then s else x)).find?
      (fun x => x.name = s.name) = some s := by
  induction m with
  | nil => simp at hany
  | cons a m ih =>
      simp only [List.any_cons, Bool.or_eq_true] at hany
      by_cases ha : a.name = s.name
      · simp [List.find?_cons, ha]
      · have hm : m.any (fun x => x.name = s.name) = true := by
          rcases hany with h | h
          · exact absurd (by simpa using h) ha
          · exact h
        simp [List.find?_cons, ha, ih hm]

theorem registryGet_mapSet (m : List Skill) (s : Skill) :
    registryGet (mapSet m s) s.name = some s := by
  rw [registryGet, mapSet]
  by_cases hany : m.any (fun x => x.name = s.name) = true
  · rw [if_pos hany]
    exact find?_map_overwrite m s hany
  · rw [if_neg hany]
    rw [List.find?_append]
    have h1 : m.find? (fun x => x.name = s.name) = none := by
      rw [List.find?_eq_none]
      intro x hx hname
      exact hany (List.any_eq_true.mpr ⟨x, hx, by simpa using hname⟩)
    rw [h1]
    simp [List.find?]

/-- C9 counterexample: the claimed uniqueness of generated names fails.
Two distinct blank-name registrations whose `nowMs()` readings fall in the
same second (here 1000 ms and 1999 ms) both receive the effective name
`unnamed_1`, because the generated name depends only on the floored
second. -/
theorem C9_blank_name_collision :
    (1000 : Nat) ≠ 1999 ∧
    (register [] none 1000).2 = (register [] none 1999).2 ∧
    (register [] none 1000).2 = genName 1000 :=
  ⟨by decide, rfl, rfl⟩

/-- C9 (amended): register never fails and always returns a non-blank
effective name; the normalized descriptor is inserted (or overwritten) and
is retrievable under that name; a blank or missing name yields the
generated name; a wholly missing config defaults every field; and two
generated names coincide exactly when the two `nowMs()` readings share the
same floored second — so they are unique across distinct seconds but NOT
across distinct registrations within one second. -/
theorem C9_register_total_defaults (skills : List Skill)
    (cfg : Option RawSkillConfig) (t t2 : Nat) :
    (register skills cfg t).2 ≠ "" ∧
    (register skills cfg t).2 = (normalizeConfig cfg t).name ∧
    registryGet (register skills cfg t).1 (register skills cfg t).2 =
      some (normalizeConfig cfg t) ∧
    (jsTrim (safeString (cfg.getD ⟨none, none, none, none⟩).name "") = "" →
      (register skills cfg t).2 = genName t) ∧
    normalizeConfig none t = ⟨genName t, "(no description)", defaultAction, true⟩ ∧
    (genName t = genName t2 ↔ t / 1000 = t2 / 1000) := by
  refine ⟨?_, rfl, ?_, ?_, rfl, genName_iff t t2⟩
  · exact normalizeConfig_name_ne cfg t
  · exact registryGet_mapSet skills (normalizeConfig cfg t)
  · intro h0
    show (normalizeConfig cfg t).name = genName t
    rw [normalizeConfig_name, if_pos h0]

theorem C9_register_total_defaults_witness :
    (register [] none 1000).2 ≠ "" ∧
    (register [] none 1000).2 = (normalizeConfig none 1000).name ∧
    registryGet (register [] none 1000).1 (register [] none 1000).2 =
      some (normalizeConfig none 1000) ∧
    (jsTrim (safeString ((Option.getD (none : Option RawSkillConfig)
        ⟨none, none, none, none⟩).name) "") = "" →
      (register [] none 1000).2 = genName 1000) ∧
    normalizeConfig none 1000 = ⟨genName 1000, "(no description)", defaultAction, true⟩ ∧
    (genName 1000 = genName 2000 ↔ 1000 / 1000 = 2000 / 1000) :=
  C9_register_total_defaults [] none 1000 2000

/-- Six rapid attempts, all inside one window. -/
def attemptsC2 : List (CallRequest × Nat) :=
  [(⟨"x", AKeyValue [], "", ""⟩, 0), (⟨"x", AKeyValue [], "", ""⟩, 1),
   (⟨"x", AKeyValue [], "", ""⟩, 2), (⟨"x", AKeyValue [], "", ""⟩, 3),
   (⟨"x", AKeyValue [], "", ""⟩, 4), (⟨"x", AKeyValue [], "", ""⟩, 5)]

theorem C2_breaker_window_witness :
    ∃ r, (runQueue [] [] attemptsC2)[5]? = some r ∧
      (5 + 1 ≤ MAX_CALLS_PER_WINDOW → ∀ c, r.outcome ≠ SkillOutcome.blocked c) ∧
      (MAX_CALLS_PER_WINDOW < 5 + 1 →
        r.outcome = SkillOutcome.blocked (5 + 1) ∧
        r.messages = [breakerMsg (5 + 1)] ∧ r.continued = false) :=
  C2_breaker_window [] attemptsC2 (by decide) 5 (by decide)

theorem C7_breaker_self_reset_witness :
    (runSkill [] [0, 1, 2, 3, 4, 5] 40000 ⟨"x", AKeyValue [], "", ""⟩).outcome ≠
      SkillOutcome.blocked 7 ∧
    (runSkill [] [0, 1, 2, 3, 4, 5] 40000 ⟨"x", AKeyValue [], "", ""⟩).newState =
      [40000] :=
  ⟨(C7_breaker_self_reset [] [0, 1, 2, 3, 4, 5] 5 40000 ⟨"x", AKeyValue [], "", ""⟩
      (by decide) (by decide)).1 7,
   (C7_breaker_self_reset [] [0, 1, 2, 3, 4, 5] 5 40000 ⟨"x", AKeyValue [], "", ""⟩
      (by decide) (by decide)).2⟩

/-- Seven attempts arriving once per millisecond: a sustained rate far above
the threshold. -/
def attemptsC10 : List (CallRequest × Nat) :=
  [(⟨"y", AKeyValue [], "", ""⟩, 0), (⟨"y", AKeyValue [], "", ""⟩, 1),
   (⟨"y", AKeyValue [], "", ""⟩, 2), (⟨"y", AKeyValue [], "", ""⟩, 3),
   (⟨"y", AKeyValue [], "", ""⟩, 4), (⟨"y", AKeyValue [], "", ""⟩, 5),
   (⟨"y", AKeyValue [], "", ""⟩, 6)]

theorem C10_blocked_attempts_append_witness :
    ((runSkill [] [] 7 ⟨"y", AKeyValue [], "", ""⟩).newState =
        (bumpCircuitBreaker 7 []).1 ∧
      7 ∈ (runSkill [] [] 7 ⟨"y", AKeyValue [], "", ""⟩).newState) ∧
    (∃ r cnt, (runQueue [] [] attemptsC10)[6]? = some r ∧
      MAX_CALLS_PER_WINDOW < cnt ∧ r.outcome = SkillOutcome.blocked cnt) :=
  ⟨(C10_blocked_attempts_append [] attemptsC10 (by decide)
      (by
        intro j h5 hlen
        have h7 : j = 5 ∨ j = 6 := by
          simp [attemptsC10] at hlen
          omega
        rcases h7 with rfl | rfl <;> decide)).1 [] 7 ⟨"y", AKeyValue [], "", ""⟩,
   (C10_blocked_attempts_append [] attemptsC10 (by decide)
      (by
        intro j h5 hlen
        have h7 : j = 5 ∨ j = 6 := by
          simp [attemptsC10] at hlen
          omega
        rcases h7 with rfl | rfl <;> decide)).2 6 (by decide) (by decide)⟩

end AgentSkills
